import Mathlib

/-!
Shallow embedding of the HOCON-style parser and resolver of
src/lib/hoconParser.js (third, current version of the file: the
definitions at lines 1479-2242).  JavaScript strings are modelled as
lists of characters, JavaScript values flowing through the parser as
the inductive type Node below.  Reference and Fallback markers are, as
in the source, ordinary objects carrying a "__type" field, so they are
modelled as mappings with a "__type" key, not as separate constructors.
Numbers are modelled exactly (mantissa and decimal exponent) rather
than as IEEE doubles; every number the program builds comes from a
decimal literal, where the two agree for all inputs of ordinary
magnitude.  File-system access and path resolution are host primitives
(out of scope per the specification) and are abstracted as a lookup
function together with a syntactic path join.  The debug flag only
drives console logging and is dropped.  Recursion that is unbounded in
the source (nested parses, include chains, reference chasing) is made
total with an explicit fuel parameter; exhausting fuel is reported as
PErr.diverge, and a result that is an error for every fuel value
models true divergence of the source.
-/

set_option maxRecDepth 100000

abbrev Str := List Char

/-- Uncaught JavaScript-level outcomes of a parse: a missing
required include (Error thrown by handleInclude), a TypeError from
calling split on a non-string reference path, and non-termination
(modelled via fuel exhaustion). -/
inductive PErr where
  | requiredMissing (p : Str)
  | typeErr
  | rangeErr
  | diverge
  deriving DecidableEq

/-- JavaScript values reachable in the parser: strings, numbers,
booleans, null, undefined, arrays and plain objects (association lists
in insertion order, as JS object keys).  An array carries its indexed
elements and, separately, its non-index own string properties, which
setVal can create (arr.foo = v stores an own property on the array)
and getVal can read back.  A number is carried as the normalized pair
m / 10 ^ e with e minimal, the exact decimal the source literal
denotes; every number in the program is produced by parseFloat on a
decimal literal, and the one place where the IEEE-754 rounding of
parseFloat is observable inside the program — the Number.isInteger
test of maybeConvertPrimitive — is modelled by rounding the exact
value (jsIsIntegerPF) rather than by the exact value itself. -/
inductive Node where
  | vstr (s : Str)
  | vnum (m : Int) (e : Nat)
  | vbool (b : Bool)
  | vnull
  | vundef
  | vseq (xs : List Node) (props : List (Str × Node))
  | vmap (kvs : List (Str × Node))

open Node

/-- Character-level whitespace test mirroring the JavaScript regex
class backslash-s on ASCII input. -/
def isWsC (c : Char) : Bool :=
  c = ' ' || c = '\t' || c = '\n' || c = '\r' || c = '\x0b' || c = '\x0c'

/-- Word characters of the JavaScript regex class backslash-w. -/
def isWordC (c : Char) : Bool :=
  ('a' ≤ c && c ≤ 'z') || ('A' ≤ c && c ≤ 'Z') || ('0' ≤ c && c ≤ '9') || c = '_'

/-- Characters admitted in a reference path by the source regex
(word characters, dot, hyphen). -/
def isRefPathC (c : Char) : Bool :=
  isWordC c || c = '.' || c = '-'

def isDigitC (c : Char) : Bool :=
  '0' ≤ c && c ≤ '9'

def trimL (s : Str) : Str := s.dropWhile (fun c => isWsC c)

def trimR (s : Str) : Str := (trimL s.reverse).reverse

/-- String.prototype.trim. -/
def trimS (s : Str) : Str := trimL (trimR s)

/-- Drop the last n elements. -/
def dropLastN (n : Nat) (s : Str) : Str := (s.reverse.drop n).reverse

/-- startsW pat s: does s start with pat. -/
def startsW : Str → Str → Bool
  | [], _ => true
  | _ :: _, [] => false
  | p :: ps, c :: cs => p = c && startsW ps cs

def endsW (pat s : Str) : Bool := startsW pat.reverse s.reverse

def containsC (c : Char) (s : Str) : Bool := s.any (fun x => x = c)

def containsSub (pat : Str) : Str → Bool
  | [] => startsW pat []
  | c :: cs => startsW pat (c :: cs) || containsSub pat cs

/-- String.prototype.split on a single character. -/
def splitCh (c : Char) (s : Str) : List Str :=
  s.foldr
    (fun ch acc =>
      if ch = c then [] :: acc
      else match acc with
        | [] => [[ch]]
        | a :: rest => (ch :: a) :: rest)
    [[]]

/-- String.prototype.split on runs of whitespace or commas, used for
inline array items (regex class of whitespace and comma, one or more). -/
def splitWsComma (s : Str) : List Str :=
  s.foldr
    (fun ch acc =>
      if isWsC ch || ch = ',' then
        match acc with
        | [] :: _ => acc
        | _ => [] :: acc
      else match acc with
        | [] => [[ch]]
        | a :: rest => (ch :: a) :: rest)
    [[]]

def lowerC (c : Char) : Char :=
  if 'A' ≤ c && c ≤ 'Z' then Char.ofNat (c.toNat + 32) else c

def lowerS (s : Str) : Str := s.map lowerC

def joinWith (sep : Str) : List Str → Str
  | [] => []
  | [x] => x
  | x :: y :: rest => x ++ sep ++ joinWith sep (y :: rest)

/-- Association-list lookup: first binding wins, as the unique-key
objects of the source. -/
def alGet : List (Str × Node) → Str → Option Node
  | [], _ => none
  | (k, v) :: rest, key => if k = key then some v else alGet rest key

/-- Property assignment obj[key] = v: replaces the first binding in
place or appends a fresh binding, preserving JS insertion order. -/
def alSet : List (Str × Node) → Str → Node → List (Str × Node)
  | [], key, v => [(key, v)]
  | (k, w) :: rest, key, v =>
    if k = key then (k, v) :: rest else (k, w) :: alSet rest key v

/-- JavaScript truthiness for the values of the model (no NaN can
arise from the decimal literals accepted by the parser). -/
def jsTruthy : Node → Bool
  | vstr s => !s.isEmpty
  | vnum m _ => m ≠ 0
  | vbool b => b
  | vnull => false
  | vundef => false
  | vseq _ _ => true
  | vmap _ => true

/-- isUndefOrNull from the source. -/
def undefOrNull : Node → Bool
  | vundef => true
  | vnull => true
  | _ => false

/-- typeof x === "object" and x is not null (arrays included), the
shape tested by the guards in getVal and setVal. -/
def isObjLike : Node → Bool
  | vseq _ _ => true
  | vmap _ => true
  | _ => false

/-- typeof x === "object", x truthy and not an array: the object test
used by mergeObjs and plusAssignValue. -/
def isPlainObj : Node → Bool
  | vmap _ => true
  | _ => false

def digitsToNat (s : Str) : Nat :=
  s.foldl (fun acc c => acc * 10 + (c.toNat - '0'.toNat)) 0

/-- Sign stripping of the numeric literal regex. -/
def stripSign : Str → Str
  | '+' :: rest => rest
  | '-' :: rest => rest
  | s => s

/-- Sign factor of the numeric literal regex. -/
def signOf : Str → Int
  | '-' :: _ => -1
  | _ => 1

/-- Shape test for the numeric literal regex: optional sign, digits,
optionally a dot followed by digits. -/
def numShapeB (s : Str) : Bool :=
  let body := stripSign s
  let intPart := body.takeWhile (fun c => isDigitC c)
  let rest := body.dropWhile (fun c => isDigitC c)
  !intPart.isEmpty &&
    (match rest with
     | [] => true
     | '.' :: frac => !frac.isEmpty && frac.all (fun c => isDigitC c)
     | _ => false)

/-- Normalize a decimal mantissa/exponent pair by stripping factors of
ten, so that equality of pairs is equality of the denoted rationals. -/
def normNum : Int → Nat → Int × Nat
  | m, 0 => (m, 0)
  | m, e + 1 => if m % 10 = 0 then normNum (m / 10) e else (m, e + 1)

/-- Exact value of parseFloat on a string of numeric shape, as a
normalized mantissa/exponent pair. -/
def parseDecimal (s : Str) : Int × Nat :=
  let sign := signOf s
  let body := stripSign s
  let intPart := body.takeWhile (fun c => isDigitC c)
  let rest := body.dropWhile (fun c => isDigitC c)
  let frac := match rest with
    | '.' :: fr => fr
    | _ => []
  let m : Int := sign * Int.ofNat (digitsToNat intPart * 10 ^ frac.length + digitsToNat frac)
  normNum m frac.length

/-- Fuelled floor of the base-two logarithm (the fuel is the number
itself, so the computation is structural and runs by plain
reduction). -/
def lg2Go : Nat → Nat → Nat
  | 0, _ => 0
  | f + 1, n => if n ≤ 1 then 0 else lg2Go f (n / 2) + 1

def lg2 (n : Nat) : Nat := lg2Go n n

/-- 2 ^ t * d ≤ m for an integer exponent t, with the sign of t
cleared onto the other side. -/
def lePow2Mul (t : Int) (d m : Nat) : Bool :=
  match t with
  | .ofNat n => 2 ^ n * d ≤ m
  | .negSucc n => d ≤ m * 2 ^ (n + 1)

/-- Number.isInteger (parseFloat raw) for a sign-stripped literal of
exact value mAbs / 10 ^ e: the exact rational is rounded to the
nearest IEEE-754 binary64 value (round to nearest, ties to even,
gradual underflow, overflow to Infinity, on which isInteger is false)
and the rounded value is tested for integrality.  The literal shape
guarantees parseFloat is never NaN, and isInteger ignores the sign. -/
def jsIsIntegerPF (mAbs e : Nat) : Bool :=
  if mAbs = 0 then true
  else
    let D := 10 ^ e
    let a := lg2 mAbs
    let b := lg2 D
    let q : Int := if lePow2Mul ((a : Int) - b) D mAbs then (a : Int) - b
      else (a : Int) - b - 1
    if q ≥ 1024 then false
    else if q < -1022 then decide (mAbs * 2 ^ 1075 ≤ D)
    else
      let t : Int := 52 - q
      let N := if 0 ≤ t then mAbs * 2 ^ t.toNat else mAbs
      let D2 := if 0 ≤ t then D else D * 2 ^ (-t).toNat
      let s0 := N / D2
      let r := N % D2
      let s := if 2 * r > D2 || (2 * r = D2 && s0 % 2 = 1) then s0 + 1 else s0
      let s2 := if s = 2 ^ 53 then 2 ^ 52 else s
      let q2 := if s = 2 ^ 53 then q + 1 else q
      if q2 ≥ 1024 then false
      else if 52 ≤ q2 then true
      else decide (s2 % 2 ^ (52 - q2).toNat = 0)

/-- maybeConvertPrimitive on a present string: booleans and null
case-insensitively, then numbers via the numeric regex, keeping the
original text when it contains a decimal point and parseFloat rounds
to an integer double (Number.isInteger on the IEEE-754 value, so
fractions beyond double precision also keep their text); otherwise
the trimmed text itself.  The converted number is carried as the
exact decimal the literal denotes. -/
def mcpStr (s0 : Str) : Node :=
  let raw := trimS s0
  if lowerS raw = "true".data then vbool true
  else if lowerS raw = "false".data then vbool false
  else if lowerS raw = "null".data then vnull
  else if numShapeB raw then
    let (m, e) := parseDecimal raw
    if containsC '.' raw && jsIsIntegerPF m.natAbs e then vstr raw else vnum m e
  else vstr raw

/-- maybeConvertPrimitive: undefined (and null) pass through, anything
else is coerced as a string. -/
def mcp : Option Str → Node
  | none => vundef
  | some s => mcpStr s

/-- Host environment: a name-to-text lookup. -/
abbrev Env := Str → Option Str

/-- Abstract file system: resolved path to file contents. -/
abbrev Fsys := Str → Option Str

/-- safeEnvLookup: reads the environment and strips one layer of
single or double quotes from the value. -/
def safeEnvLookup (env : Env) (key : Str) : Option Str :=
  match env key with
  | none => none
  | some v =>
    if (startsW "\"".data v && endsW "\"".data v) ||
       (startsW "'".data v && endsW "'".data v) then
      some (dropLastN 1 (v.drop 1))
    else some v

/-- Decoding of the two-character escape sequence backslash-n into a
newline, as the replace call on triple-quoted content. -/
def decodeNl : Str → Str
  | [] => []
  | '\\' :: 'n' :: rest => '\n' :: decodeNl rest
  | c :: rest => c :: decodeNl rest

/-- Literal object produced for a path reference, with the insertion
order of the source object literal. -/
def mkRef (p : Str) : Node :=
  vmap [("__type".data, vstr "REF".data), ("path".data, vstr p)]

/-- Literal object produced for a fallback expression. -/
def mkFB (m fb : Node) : Node :=
  vmap [("__type".data, vstr "FALLBACK".data), ("main".data, m), ("fallback".data, fb)]

/-- Result of an environment substitution: a quoted substitution is
coerced with String (or left absent), an unquoted one goes through
typed-literal coercion. -/
def envResult (env : Env) (wasQuoted : Bool) (name : Str) : Node :=
  let v := safeEnvLookup env name
  if wasQuoted then
    match v with
    | none => vundef
    | some t => vstr t
  else mcp v

/-- Shape test and capture for the pattern dollar-brace-question-name-
brace covering the whole token. -/
def curlyEnvName (raw : Str) : Option Str :=
  match raw with
  | '$' :: '\x7b' :: '?' :: rest =>
    if endsW "\x7d".data rest then
      let name := dropLastN 1 rest
      if !name.isEmpty && name.all (fun c => isWordC c) then some name else none
    else none
  | _ => none

/-- Shape test and capture for a path reference dollar-brace-path-
brace covering the whole token. -/
def refPathName (raw : Str) : Option Str :=
  match raw with
  | '$' :: '\x7b' :: rest =>
    if endsW "\x7d".data rest then
      let p := dropLastN 1 rest
      if !p.isEmpty && p.all (fun c => isRefPathC c) then some p else none
    else none
  | _ => none

/-- Branches of resolveEnvOrRef after quote stripping: question-name
environment lookup, curly environment lookup, path reference, then
typed coercion (or the bare string when the token was quoted). -/
def envOrRefBody (env : Env) (wasQuoted : Bool) (raw : Str) : Node :=
  let qEnv : Option Str := match raw with
    | '?' :: name =>
      if !name.isEmpty && name.all (fun c => isWordC c) then some name else none
    | _ => none
  match qEnv with
  | some name => envResult env wasQuoted name
  | none =>
    match curlyEnvName raw with
    | some name => envResult env wasQuoted name
    | none =>
      match refPathName raw with
      | some p => mkRef p
      | none => if wasQuoted then vstr raw else mcpStr raw

/-- resolveEnvOrRef: triple-quoted strings, one layer of quoting,
environment substitutions, path references, then typed coercion. -/
def resolveEnvOrRef (env : Env) (raw0 : Str) : Node :=
  if startsW "\"\"\"".data raw0 && endsW "\"\"\"".data raw0 then
    vstr (decodeNl (dropLastN 3 (raw0.drop 3)))
  else
    let wasQuoted :=
      (startsW "\"".data raw0 && endsW "\"".data raw0) ||
      (startsW "'".data raw0 && endsW "'".data raw0)
    let raw := if wasQuoted then dropLastN 1 (raw0.drop 1) else raw0
    envOrRefBody env wasQuoted raw

/-- Worker for extractTopLevelBlocks: depth is an integer because the
source decrements below zero on stray closers; cur holds the reversed
characters of the block currently open at depth transition 0 to 1. -/
def extractGo (o c : Char) : Str → Int → Option Str → List Str → List Str
  | [], _, _, acc => acc.reverse
  | ch :: rest, d, cur, acc =>
    if ch = o then
      let cur' := if d = 0 then some [ch] else cur.map (fun b => ch :: b)
      extractGo o c rest (d + 1) cur' acc
    else if ch = c then
      let cur' := cur.map (fun b => ch :: b)
      if d - 1 = 0 then
        match cur' with
        | some b => extractGo o c rest (d - 1) none (b.reverse :: acc)
        | none => extractGo o c rest (d - 1) none acc
      else extractGo o c rest (d - 1) cur' acc
    else extractGo o c rest d (cur.map (fun b => ch :: b)) acc

/-- extractTopLevelBlocks from the source: the depth-zero bracketed
substrings of str, including their delimiters. -/
def extractTLB (str : Str) (o c : Char) : List Str :=
  extractGo o c str 0 none []

/-- Group scanner of tokenizeLine: consumes from after the opener
until the matching closer (only the scanned pair adjusts depth) or the
end of the line, returning the consumed characters reversed and the
remainder. -/
def scanGroup (o c : Char) : Str → Nat → Str → (Str × Str)
  | [], _, acc => (acc, [])
  | ch :: rest, depth, acc =>
    let depth' := if ch = o then depth + 1 else if ch = c then depth - 1 else depth
    if ch = c && depth = 1 then (ch :: acc, rest)
    else scanGroup o c rest depth' (ch :: acc)

/-- Main loop of tokenizeLine, fuelled: every iteration either
consumes a character or hits the stray-closer case, where the source
loops forever without advancing (a bare closing bracket or brace makes
the text branch gather an empty token and never increment i); that
case is reported as divergence. -/
def tokGo : Nat → Str → Except PErr (List Str)
  | 0, _ => .error .diverge
  | _ + 1, [] => .ok []
  | f + 1, ch :: rest =>
    if isWsC ch then tokGo f rest
    else if ch = '[' then
      let (tok, rest') := scanGroup '[' ']' rest 1 [ch]
      (tokGo f rest').map (fun ts => trimS tok.reverse :: ts)
    else if ch = '\x7b' then
      let (tok, rest') := scanGroup '\x7b' '\x7d' rest 1 [ch]
      (tokGo f rest').map (fun ts => trimS tok.reverse :: ts)
    else if ch = ']' || ch = '\x7d' then .error .diverge
    else
      let text := (ch :: rest).takeWhile
        (fun x => !isWsC x && x ≠ '[' && x ≠ ']' && x ≠ '\x7b' && x ≠ '\x7d')
      let rest' := (ch :: rest).dropWhile
        (fun x => !isWsC x && x ≠ '[' && x ≠ ']' && x ≠ '\x7b' && x ≠ '\x7d')
      (tokGo f rest').map (fun ts => trimS text :: ts)

/-- tokenizeLine: quote-unaware, bracket-and-brace-aware splitting of
a value line into group and text tokens. -/
def tokenizeLine (line : Str) : Except PErr (List Str) :=
  tokGo (line.length + 1) line

/-- parseInlineArray: strip the brackets, split the interior on
whitespace and commas, drop empty items, resolve each item. -/
def parseInlineArray (env : Env) (arrStr : Str) : Node :=
  let inner := trimS (dropLastN 1 (arrStr.drop 1))
  if inner.isEmpty then vseq [] []
  else
    vseq (((((splitWsComma inner).map trimS).filter (fun t => !t.isEmpty))
      |>.map (fun t => resolveEnvOrRef env t))) []

/-- Digit string of a natural number. -/
def natDigits (n : Nat) : Str := Nat.toDigits 10 n

/-- Decimal rendering of a normalized mantissa/exponent pair, matching
the JavaScript String() form of such a number. -/
def renderNum (m : Int) (e : Nat) : Str :=
  let sign : Str := if m < 0 then "-".data else []
  let ds := natDigits m.natAbs
  if e = 0 then sign ++ ds
  else
    let padded := if ds.length < e + 1 then List.replicate (e + 1 - ds.length) '0' ++ ds else ds
    sign ++ padded.take (padded.length - e) ++ ".".data ++ padded.drop (padded.length - e)

mutual

/-- String() coercion of a value, used by the token-join branch of
parseMultipleBlocks: arrays join their elements with commas (null and
undefined rendering as empty), objects print as object Object. -/
def jsString : Node → Str
  | vstr s => s
  | vnum m e => renderNum m e
  | vbool b => if b then "true".data else "false".data
  | vnull => "null".data
  | vundef => "undefined".data
  | vseq xs _ => joinWith ",".data (jsStringEls xs)
  | vmap _ => "[object Object]".data

def jsStringEls : List Node → List Str
  | [] => []
  | vnull :: rest => [] :: jsStringEls rest
  | vundef :: rest => [] :: jsStringEls rest
  | x :: rest => jsString x :: jsStringEls rest

end

mutual

/-- mergeObjs from the source: a non-object or array source is
returned as a direct override (the caller decides what to do with
it); the target of every reachable call is a plain object (the reduce
seed, an existing value guarded as a non-array object, or an include
parent), so the model keeps other targets unchanged; otherwise the
source entries are folded into the target. -/
def mergeObjs (t : Node) : Node → Node
  | vmap sl =>
    match t with
    | vmap tl => vmap (mergeFold tl sl)
    | _ => t
  | s => s

/-- Per-entry fold of mergeObjs: plain objects on both sides merge
recursively; arrays on both sides follow the single-element patch
rule (skip on an absent element, index-zero patch on a present one,
full replacement otherwise); anything else overwrites. -/
def mergeFold (t : List (Str × Node)) : List (Str × Node) → List (Str × Node)
  | [] => t
  | (k, v) :: rest =>
    mergeFold
      (match v, alGet t k with
       | vmap sm, some (vmap tm) => alSet t k (mergeObjs (vmap tm) (vmap sm))
       | vseq sv sp, some (vseq tv tp) =>
         match sv with
         | [e] =>
           if undefOrNull e then t
           else alSet t k (vseq (match tv with | [] => [e] | _ :: tl => e :: tl) tp)
         | _ => alSet t k (vseq sv sp)
       | _, _ => alSet t k v)
      rest

end

/-- Reduce step used by parseMultipleBlocks when every token parsed to
an object: the accumulator object is mutated by mergeObjs and the
accumulator itself is returned, so a non-object source would leave the
accumulator unchanged. -/
def mergeList (blocks : List Node) : Node :=
  blocks.foldl
    (fun acc b => match b with
      | vmap _ => mergeObjs acc b
      | _ => acc)
    (vmap [])

/-- Canonical array index: the strings under which JavaScript stores
array elements (no sign, no leading zero except the string 0 itself,
below the 2 ^ 32 - 1 index limit); any other key on an array is an
ordinary own property. -/
def toIdx (s : Str) : Option Nat :=
  if s.isEmpty || !s.all (fun c => isDigitC c) then none
  else match s with
    | '0' :: _ :: _ => none
    | _ =>
      let n := digitsToNat s
      if n < 4294967295 then some n else none

/-- Element write arr[i] = v including the sparse-extension case,
where intermediate holes read back as undefined. -/
def seqSet (xs : List Node) (i : Nat) (v : Node) : List Node :=
  if i < xs.length then xs.set i v
  else xs ++ List.replicate (i - xs.length) vundef ++ [v]

/-- The integral unsigned 32-bit reading of an exact decimal, when it
has one. -/
def asU32 (me : Int × Nat) : Option Nat :=
  if me.2 = 0 && decide (0 ≤ me.1) && decide (me.1 < 4294967296) then some me.1.toNat
  else none

/-- ToNumber of a string as far as the array length assignment needs
it: empty trimmed text is zero, a plain decimal literal its exact
value; other text gives NaN (the exotic numeric string forms —
hexadecimal, exponent notation, Infinity — are not modelled and fall
to NaN as well). -/
def strToNumQ (s : Str) : Option (Int × Nat) :=
  let t := trimS s
  if t.isEmpty then some (0, 0)
  else if numShapeB t then some (parseDecimal t) else none

/-- The new length when arr.length is assigned v: JS coerces v with
ToNumber (objects through ToPrimitive, where an array joins its
elements into a string and a plain object gives NaN) and requires an
integral unsigned 32-bit result, throwing RangeError otherwise. -/
def jsToLength : Node → Option Nat
  | vnum m e => asU32 (m, e)
  | vbool b => some (if b then 1 else 0)
  | vnull => some 0
  | vundef => none
  | vstr s => (strToNumQ s).bind asU32
  | vseq xs _ => (strToNumQ (joinWith ",".data (jsStringEls xs))).bind asU32
  | vmap _ => none

/-- arr.length = n: truncate, or extend with holes that read back as
undefined. -/
def resizeTo (xs : List Node) (n : Nat) : List Node :=
  if n ≤ xs.length then xs.take n
  else xs ++ List.replicate (n - xs.length) vundef

/-- Single property write cur[last] = v of setVal: object keys and
array indices store the value; length on an array resizes it or
throws RangeError; any other key on an array becomes an own property
of the array.  Writes on non-objects are silent no-ops in sloppy
mode. -/
def setLeaf (cur : Node) (key : Str) (v : Node) : Except PErr Node :=
  match cur with
  | vmap kvs => .ok (vmap (alSet kvs key v))
  | vseq xs props =>
    if key = "length".data then
      match jsToLength v with
      | some n => .ok (vseq (resizeTo xs n) props)
      | none => .error .rangeErr
    else match toIdx key with
      | some i => .ok (vseq (seqSet xs i v) props)
      | none => .ok (vseq xs (alSet props key v))
  | other => .ok other

/-- Path walk of setVal: a falsy or non-object intermediate is
replaced by a fresh object before descending, including into the
stored properties of an array (prototype-chain properties are not
modelled); an intermediate length segment on an array assigns a fresh
object to length, which always throws RangeError. -/
def setValGo : Node → List Str → Node → Except PErr Node
  | cur, [], _ => .ok cur
  | cur, [last], v => setLeaf cur last v
  | cur, p :: rest, v =>
    match cur with
    | vmap kvs =>
      let child := match alGet kvs p with
        | some c => if isObjLike c then c else vmap []
        | none => vmap []
      (setValGo child rest v).map (fun c2 => vmap (alSet kvs p c2))
    | vseq xs props =>
      if p = "length".data then .error .rangeErr
      else match toIdx p with
      | some i =>
        let child := match xs.get? i with
          | some c => if isObjLike c then c else vmap []
          | none => vmap []
        (setValGo child rest v).map (fun c2 => vseq (seqSet xs i c2) props)
      | none =>
        let child := match alGet props p with
          | some c => if isObjLike c then c else vmap []
          | none => vmap []
        (setValGo child rest v).map (fun c2 => vseq xs (alSet props p c2))
    | other => .ok other

/-- setVal: dotted-path assignment creating intermediate objects,
ignoring empty path segments; an empty or all-dot key is ignored.
The RangeError of an array length assignment propagates and aborts
the parse. -/
def setVal (obj : Node) (dottedKey : Str) (v : Node) : Except PErr Node :=
  let parts := (splitCh '.' dottedKey).filter (fun p => !p.isEmpty)
  if parts.isEmpty then .ok obj else setValGo obj parts v

/-- Single property read c[p] as it happens inside getVal, on the
objects of the model: objects by key, arrays by canonical index,
length, or their stored own properties (prototype-chain properties
such as methods are not modelled and read as undefined). -/
def getLeaf (c : Node) (p : Str) : Node :=
  match c with
  | vmap kvs => (alGet kvs p).getD vundef
  | vseq xs props =>
    if p = "length".data then vnum (Int.ofNat xs.length) 0
    else match toIdx p with
      | some i => (xs.get? i).getD vundef
      | none => (alGet props p).getD vundef
  | _ => vundef

/-- Loop of getVal: the guard returns undefined as soon as the cursor
is falsy or not an object. -/
def getValGo : Node → List Str → Option Node
  | vundef, [] => none
  | c, [] => some c
  | c, p :: rest => if isObjLike c then getValGo (getLeaf c p) rest else none

/-- getVal: dotted-path lookup; none models a JavaScript undefined
result (a stored undefined is indistinguishable from an absent key
here, exactly as in the source). -/
def getVal (obj : Node) (dottedKey : Str) : Option Node :=
  getValGo obj (splitCh '.' dottedKey)

mutual

/-- deepClone from the source: arrays are copied with map, which
copies the indexed elements only and so drops any stored own
properties of the array; objects copy their entries; immutable values
are returned as they are. -/
def deepClone : Node → Node
  | vseq xs _ => vseq (dcList xs) []
  | vmap kvs => vmap (dcPairs kvs)
  | x => x

def dcList : List Node → List Node
  | [] => []
  | x :: xs => deepClone x :: dcList xs

def dcPairs : List (Str × Node) → List (Str × Node)
  | [] => []
  | (k, v) :: kvs => (k, deepClone v) :: dcPairs kvs

end

/-- Ordered override list (dotted path, raw text), the shape produced
by the env and argv collaborators. -/
abbrev Ov := List (Str × Str)

/-- Type of the recursive parser entry point threaded into the value
layer: overrides, content, base directory. -/
abbrev PS := Ov → Str → Str → Except PErr Node

/-- parseSingleToken: bracketed tokens parse as arrays, braced tokens
parse their interior as a nested document with the debug option only
(no overrides), anything else goes through resolveEnvOrRef. -/
def parseSingleTokenW (ps : PS) (env : Env) (baseDir token : Str) : Except PErr Node :=
  if startsW "[".data token && endsW "]".data token then
    .ok (parseInlineArray env token)
  else if startsW "\x7b".data token && endsW "\x7d".data token then
    ps [] (trimS (dropLastN 1 (token.drop 1))) baseDir
  else .ok (resolveEnvOrRef env token)

/-- Array test used by the all-arrays branch. -/
def isSeqB : Node → Bool
  | vseq _ _ => true
  | _ => false

def seqElems : Node → List Node
  | vseq xs _ => xs
  | _ => []

/-- parseMultipleBlocks: tokenize, recognise the exact three-token
fallback pattern, else concatenate arrays, merge objects, or join the
String forms of the tokens with spaces. -/
def parseMultipleBlocksW (ps : PS) (env : Env) (baseDir line : Str) : Except PErr Node := do
  let tokens ← tokenizeLine line
  match tokens with
  | [t0, t1, t2] =>
    if lowerS t1 = "or".data then do
      let mainVal ← parseSingleTokenW ps env baseDir t0
      let fbVal ← parseSingleTokenW ps env baseDir t2
      .ok (mkFB mainVal fbVal)
    else do
      let parsed ← tokens.mapM (fun t => parseSingleTokenW ps env baseDir t)
      if parsed.all isSeqB then
        .ok (vseq (parsed.foldl (fun acc x => acc ++ seqElems x) []) [])
      else if parsed.all isPlainObj then .ok (mergeList parsed)
      else .ok (vstr (joinWith " ".data (parsed.map jsString)))
  | _ => do
    let parsed ← tokens.mapM (fun t => parseSingleTokenW ps env baseDir t)
    if parsed.all isSeqB then
      .ok (vseq (parsed.foldl (fun acc x => acc ++ seqElems x) []) [])
    else if parsed.all isPlainObj then .ok (mergeList parsed)
    else .ok (vstr (joinWith " ".data (parsed.map jsString)))

/-- parseInlineValue: with more than one top-level bracket or brace
group the line goes to parseMultipleBlocks; a single bracketed group
is an array; a single braced group is a nested document parsed with
the debug option only; otherwise a scalar token. -/
def parseInlineValueW (ps : PS) (env : Env) (baseDir rawVal : Str) : Except PErr Node :=
  let val := trimS rawVal
  let braceBlocks := extractTLB val '\x7b' '\x7d'
  let bracketBlocks := extractTLB val '[' ']'
  if braceBlocks.length + bracketBlocks.length > 1 then
    parseMultipleBlocksW ps env baseDir val
  else if startsW "[".data val && endsW "]".data val then
    .ok (parseInlineArray env val)
  else if startsW "\x7b".data val && endsW "\x7d".data val then
    ps [] (trimS (dropLastN 1 (val.drop 1))) baseDir
  else .ok (resolveEnvOrRef env val)

/-- isUndefOrNull applied to a lookup result, where an absent key and
an undefined value coincide. -/
def optUndefOrNull : Option Node → Bool
  | none => true
  | some v => undefOrNull v

/-- Test for a one-element array whose element is undefined or null,
against a non-empty existing array: the skip-on-absent guard shared by
assignValue and plusAssignValue. -/
def absentSingletonOver (newVal : Node) (existing : Option Node) : Bool :=
  match newVal, existing with
  | vseq [e] _, some (vseq (_ :: _) _) => undefOrNull e
  | _, _ => false

/-- assignValue: resolve the raw value, then skip when the new value
is the absent sentinel over a present non-null value, or when it is a
one-element absent array over a non-empty array; otherwise assign. -/
def assignValueW (ps : PS) (env : Env) (baseDir : Str) (obj : Node)
    (dottedKey rawVal : Str) : Except PErr Node := do
  let newVal ← parseInlineValueW ps env baseDir rawVal
  let existingVal := getVal obj dottedKey
  if undefOrNull newVal && !optUndefOrNull existingVal then .ok obj
  else if absentSingletonOver newVal existingVal then .ok obj
  else setVal obj dottedKey newVal

/-- plusAssignValue: plain assignment on an absent key; skip on an
absent new value or an absent singleton array; arrays concatenate,
objects deep-merge, strings concatenate, anything else overwrites. -/
def plusAssignValueW (ps : PS) (env : Env) (baseDir : Str) (obj : Node)
    (dottedKey rawVal : Str) : Except PErr Node := do
  let newVal ← parseInlineValueW ps env baseDir rawVal
  match getVal obj dottedKey with
  | none => setVal obj dottedKey newVal
  | some existingVal =>
    if undefOrNull newVal then .ok obj
    else if absentSingletonOver newVal (some existingVal) then .ok obj
    else
      match newVal with
      | vseq nv np =>
        match existingVal with
        | vseq ov _ => setVal obj dottedKey (vseq (ov ++ nv) [])
        | _ => setVal obj dottedKey (vseq nv np)
      | vmap nm =>
        match existingVal with
        | vmap om => setVal obj dottedKey (mergeObjs (vmap om) (vmap nm))
        | _ => setVal obj dottedKey (vmap nm)
      | vstr ns =>
        match existingVal with
        | vstr os => setVal obj dottedKey (vstr (os ++ ns))
        | _ => setVal obj dottedKey (vstr ns)
      | other => setVal obj dottedKey other

/-- Shapes of an include line. -/
inductive IncForm where
  | required (f : Str)
  | optional (f : Str)

/-- Match of the two include regexes: the keyword, one or more spaces,
then either required with a quoted greedy filename or a bare quoted
greedy filename, each anchored at the end of the line. -/
def includeMatch (line : Str) : Option IncForm :=
  if startsW "include".data line then
    let after := line.drop 7
    match after with
    | c :: _ =>
      if isWsC c then
        let rest := trimL after
        if startsW "required(\"".data rest && endsW "\")".data rest &&
            decide (rest.length ≥ 13) then
          some (.required (dropLastN 2 (rest.drop 10)))
        else if startsW "\"".data rest && endsW "\"".data rest &&
            decide (rest.length ≥ 3) then
          some (.optional (dropLastN 1 (rest.drop 1)))
        else none
      else none
    | [] => none
  else none

/-- Syntactic stand-in for path.resolve of the including directory and
the include target (path primitives are out-of-scope collaborators). -/
def joinP (baseDir f : Str) : Str :=
  if baseDir.isEmpty || baseDir = ".".data then f else baseDir ++ "/".data ++ f

/-- Syntactic stand-in for path.dirname. -/
def dirnameOf (p : Str) : Str :=
  let parts := splitCh '/' p
  match parts with
  | [] => ".".data
  | [_] => ".".data
  | _ => joinWith "/".data parts.dropLast

/-- handleInclude: a missing required target throws the fatal error; a
missing optional target is silently skipped; a present target is fully
parsed (with the same options, hence the same overrides) and merged
into the current mapping; an unrecognised include line is ignored. -/
def handleIncludeW (ps : PS) (fsys : Fsys) (ov : Ov) (baseDir line : Str)
    (parent : Node) : Except PErr Node :=
  match includeMatch line with
  | some (.required f) =>
    let incPath := joinP baseDir f
    match fsys incPath with
    | none => .error (.requiredMissing incPath)
    | some content => (ps ov content (dirnameOf incPath)).map (fun inc => mergeObjs parent inc)
  | some (.optional f) =>
    let incPath := joinP baseDir f
    match fsys incPath with
    | none => .ok parent
    | some content => (ps ov content (dirnameOf incPath)).map (fun inc => mergeObjs parent inc)
  | none => .ok parent

/-- Remainder of a string after its first triple-quote occurrence. -/
def afterTriple : Str → Option Str
  | [] => none
  | c :: cs =>
    if startsW "\"\"\"".data (c :: cs) then some ((c :: cs).drop 3)
    else afterTriple cs

/-- Modes of the preprocessor loop: normal lines, absorbing a
triple-quoted string, absorbing a multi-line array. -/
inductive PreMode where
  | norm
  | tri (acc : Str)
  | bra (acc : Str)

/-- Preprocessor loop: a line opening an unterminated triple quote
absorbs following lines with escaped newlines until a line containing
a triple quote; a line with a bracket that does not end, trimmed, with
a closing bracket and contains no closer absorbs following lines
verbatim until one contains a closer; unterminated absorption at end
of input emits what was gathered. -/
def preGo : List Str → PreMode → List Str
  | [], .norm => []
  | [], .tri acc => [acc]
  | [], .bra acc => [acc]
  | l :: rest, .norm =>
    if containsSub "\"\"\"".data l then
      if (match afterTriple l with
          | some r => containsSub "\"\"\"".data r
          | none => false) then
        l :: preGo rest .norm
      else preGo rest (.tri l)
    else if containsC '[' l && !endsW "]".data (trimS l) then
      if containsC ']' l then l :: preGo rest .norm
      else preGo rest (.bra l)
    else l :: preGo rest .norm
  | l :: rest, .tri acc =>
    let acc' := acc ++ '\\' :: 'n' :: l
    if containsSub "\"\"\"".data l then acc' :: preGo rest .norm
    else preGo rest (.tri acc')
  | l :: rest, .bra acc =>
    let acc' := acc ++ l
    if containsC ']' l then acc' :: preGo rest .norm
    else preGo rest (.bra acc')

/-- preProcessHocon followed by the trim-and-filter step of
parseString: logical lines, trimmed, with blank and comment lines
removed. -/
def prepLines (content : Str) : List Str :=
  ((preGo (splitCh '\n' content) .norm).map trimS).filter
    (fun l => !l.isEmpty && !startsW "#".data l && !startsW "//".data l)

/-- Position of the first opening brace usable as the key delimiter of
a block line: at index one or later, with no equals or colon before it
(the lazy one-or-more group of non-delimiters in the source regex). -/
def braceKeyGo : Str → Nat → Option Nat
  | [], _ => none
  | c :: rest, pos =>
    if c = '=' || c = ':' then none
    else if c = '\x7b' && decide (pos ≥ 1) then some pos
    else braceKeyGo rest (pos + 1)

/-- Match of the single-line block regex: key, brace, inner body,
closing brace, optional trailing whitespace. -/
def singleBlockM (line : Str) : Option (Str × Str) :=
  match braceKeyGo line 0 with
  | none => none
  | some i =>
    let r := trimR line
    if endsW "\x7d".data r then
      some (trimS (line.take i), trimS (dropLastN 1 (r.drop (i + 1))))
    else none

/-- Match of the block-opener regex: key, brace, only whitespace to
the end of the line. -/
def openBlockM (line : Str) : Option Str :=
  let r := trimR line
  if endsW "\x7b".data r then
    let i := r.length - 1
    if decide (i ≥ 1) && !(r.take i).any (fun c => c = '=' || c = ':') then
      some (trimS (line.take i))
    else none
  else none

/-- Position of the first plus-equals with at least one character
before it (the lazy group of the append regex). -/
def plusIdxGo : Str → Nat → Option Nat
  | c1 :: c2 :: rest, pos =>
    if decide (pos ≥ 1) && c1 = '+' && c2 = '=' then some pos
    else plusIdxGo (c2 :: rest) (pos + 1)
  | _, _ => none

/-- Match of the append regex: key, plus-equals, raw value with at
least one character. -/
def plusM (line : Str) : Option (Str × Str) :=
  match plusIdxGo line 0 with
  | none => none
  | some p =>
    if decide (p + 2 < line.length) then
      some (trimS (line.take p), trimS (line.drop (p + 2)))
    else none

/-- Position of the first equals or colon with at least one character
before it. -/
def eqIdxGo : Str → Nat → Option Nat
  | [], _ => none
  | c :: rest, pos =>
    if decide (pos ≥ 1) && (c = '=' || c = ':') then some pos
    else eqIdxGo rest (pos + 1)

/-- Match of the assignment regex: key, equals or colon, raw value
with at least one character. -/
def eqM (line : Str) : Option (Str × Str) :=
  match eqIdxGo line 0 with
  | none => none
  | some p =>
    if decide (p + 1 < line.length) then
      some (trimS (line.take p), trimS (line.drop (p + 1)))
    else none

/-- parseBlock: the shared forward-only cursor is the returned list of
unconsumed lines.  A closing brace ends the block without being
consumed (the caller of a nested block consumes it); include lines,
single-line blocks, block openers, append and plain assignments are
tried in the order of the source; an unmatched line is skipped. -/
def parseGo (ps : PS) (env : Env) (fsys : Fsys) (ov : Ov) (baseDir : Str) :
    Nat → List Str → Node → Except PErr (Node × List Str)
  | 0, _, _ => .error .diverge
  | _ + 1, [], parent => .ok (parent, [])
  | f + 1, line :: rest, parent =>
    if startsW "\x7d".data line then .ok (parent, line :: rest)
    else if startsW "include ".data line then do
      let parent' ← handleIncludeW ps fsys ov baseDir line parent
      parseGo ps env fsys ov baseDir f rest parent'
    else
      match singleBlockM line with
      | some (key, inner) => do
        let child ← ps ov inner baseDir
        let parent2 ← setVal parent key child
        parseGo ps env fsys ov baseDir f rest parent2
      | none =>
        match openBlockM line with
        | some key => do
          let (child, rest') ← parseGo ps env fsys ov baseDir f rest (vmap [])
          let rest'' := match rest' with
            | l :: tl => if startsW "\x7d".data l then tl else rest'
            | [] => rest'
          let parent2 ← setVal parent key child
          parseGo ps env fsys ov baseDir f rest'' parent2
        | none =>
          match plusM line with
          | some (k, raw) => do
            let parent' ← plusAssignValueW ps env baseDir parent k raw
            parseGo ps env fsys ov baseDir f rest parent'
          | none =>
            match eqM line with
            | some (k, raw) => do
              let parent' ← assignValueW ps env baseDir parent k raw
              parseGo ps env fsys ov baseDir f rest parent'
            | none => parseGo ps env fsys ov baseDir f rest parent

/-- Override application: each entry is written with setVal, in list
order, values kept as the raw strings they arrive as; a throwing
write aborts. -/
def applyOv (m : Node) : Ov → Except PErr Node
  | [] => .ok m
  | kv :: rest => do
    let m2 ← setVal m kv.1 (vstr kv.2)
    applyOv m2 rest

/-- Front half of parseString: preprocess and filter the lines, run
the block parser from an empty root, then apply the overrides.  The
result is the intermediate tree handed to the two resolver passes. -/
def parseCore (ps : PS) (env : Env) (fsys : Fsys) (f : Nat) (ov : Ov)
    (content baseDir : Str) : Except PErr Node := do
  let (m, _) ← parseGo ps env fsys ov baseDir f (prepLines content) (vmap [])
  applyOv m ov

/-- String value of an object's type tag, when the tag is a string
(the strict equality of the source compares it against REF and
FALLBACK only when it is one). -/
def tagOf (kvs : List (Str × Node)) : Option Str :=
  match alGet kvs "__type".data with
  | some (vstr t) => some t
  | _ => none

def isFBKvs (kvs : List (Str × Node)) : Bool :=
  tagOf kvs = some "FALLBACK".data

/-- Truthy path of an object recognised by the reference branch: the
tag is the string REF and the path property is truthy.  The returned
node is the raw path value; a non-string value makes getVal throw. -/
def refPathOf (kvs : List (Str × Node)) : Option Node :=
  if tagOf kvs = some "REF".data then
    match alGet kvs "path".data with
    | some pv => if jsTruthy pv then some pv else none
    | none => none
  else none

mutual

/-- resolveFallbacks as a value: arrays resolve their indexed
elements only (their stored properties are not visited) and objects
resolve their entries; an object tagged FALLBACK is replaced by its resolved main
unless that is undefined or null, in which case by its resolved
fallback (the source resolves exactly the main and fallback children
and returns one of them; resolving all children first and then
selecting is the same value). -/
def rfN : Node → Node
  | vseq xs props => vseq (rfList xs) props
  | vmap kvs =>
    if isFBKvs kvs then
      let resolved := rfPairs kvs
      let mainVal := (alGet resolved "main".data).getD vundef
      let fbVal := (alGet resolved "fallback".data).getD vundef
      if undefOrNull mainVal then fbVal else mainVal
    else vmap (rfPairs kvs)
  | n => n

def rfList : List Node → List Node
  | [] => []
  | x :: xs => rfN x :: rfList xs

def rfPairs : List (Str × Node) → List (Str × Node)
  | [] => []
  | (k, v) :: kvs => (k, rfN v) :: rfPairs kvs

end

mutual

/-- Effect of the top-level resolveFallbacks call, whose return value
parseString discards: when the root itself is tagged FALLBACK the
source only recurses into its main and fallback children in place and
the root object survives; otherwise the in-place key updates make the
root equal to the resolved value. -/
def rfTop : Node → Node
  | vmap kvs => if isFBKvs kvs then vmap (rfTopPairs kvs) else rfN (vmap kvs)
  | n => rfN n

def rfTopPairs : List (Str × Node) → List (Str × Node)
  | [] => []
  | (k, v) :: kvs =>
    (k, if k = "main".data || k = "fallback".data then rfTop v else v) :: rfTopPairs kvs

end

/-- Step of a position inside the tree: an object key or an array
index.  Positions stand for the object identities that the source
walks in place. -/
inductive PStep where
  | key (k : Str)
  | idx (i : Nat)
  deriving DecidableEq

abbrev TPath := List PStep

def childAt : PStep → Node → Option Node
  | .key k, vmap kvs => alGet kvs k
  | .idx i, vseq xs _ => xs.get? i
  | .key k, vseq _ props => alGet props k
  | _, _ => none

def getPath : Node → TPath → Option Node
  | n, [] => some n
  | n, st :: p =>
    match childAt st n with
    | none => none
    | some c => getPath c p

def replaceChild (st : PStep) (n c : Node) : Node :=
  match st, n with
  | .key k, vmap kvs => vmap (alSet kvs k c)
  | .idx i, vseq xs props => vseq (xs.set i c) props
  | .key k, vseq xs props => vseq xs (alSet props k c)
  | _, n => n

/-- In-place update of the subtree at a valid position; an invalid
position leaves the tree unchanged. -/
def setPath : Node → TPath → Node → Node
  | _, [], t => t
  | n, st :: p, t =>
    match childAt st n with
    | none => n
    | some c => replaceChild st n (setPath c p t)

/-- Resolution of a detached clone against the live root, as the
recursive resolveReferences call on a deep-cloned lookup result: the
clone is fresh, so the identity-based visited set can never contain
it, and only fuel bounds the recursion; lookups that are absent
resolve to undefined, a truthy non-string path makes the getVal call
inside the source throw a TypeError. -/
def resolveDet : Nat → Node → Node → Except PErr Node
  | 0, _, _ => .error .diverge
  | f + 1, root, n =>
    match n with
    | vseq xs props => (xs.mapM (fun x => resolveDet f root x)).map (fun ys => vseq ys props)
    | vmap kvs =>
      match refPathOf kvs with
      | some (vstr q) =>
        match getVal root q with
        | none => .ok vundef
        | some v => resolveDet f root (deepClone v)
      | some _ => .error .typeErr
      | none =>
        (kvs.mapM (fun kv => (resolveDet f root kv.2).map (fun w => (kv.1, w)))).map vmap
    | other => .ok other

/-- Depth-first in-place walk of resolveReferences over the live
root, with the worklist holding the positions still to visit in the
exact order the source recursion visits them.  A reference node is
replaced by the detached resolution of its deep-cloned target (or by
undefined when the target is absent) and is not descended into; other
objects enqueue their entries and arrays their indexed elements only,
never their stored properties.  The identity-based
visited set of the source never fires on these physically tree-shaped
values (lookup results are cloned before the recursive call and the
main walk meets every live node once), so it has no counterpart
here. -/
def refWalk : Nat → Node → List TPath → Except PErr Node
  | 0, _, _ => .error .diverge
  | _ + 1, root, [] => .ok root
  | f + 1, root, p :: ps =>
    match getPath root p with
    | none => refWalk f root ps
    | some n =>
      match n with
      | vseq xs _ =>
        refWalk f root (((List.range xs.length).map (fun i => p ++ [PStep.idx i])) ++ ps)
      | vmap kvs =>
        match refPathOf kvs with
        | some (vstr q) =>
          match getVal root q with
          | none => refWalk f (setPath root p vundef) ps
          | some v =>
            match resolveDet f root (deepClone v) with
            | .error e => .error e
            | .ok t => refWalk f (setPath root p t) ps
        | some _ => .error .typeErr
        | none => refWalk f root ((kvs.map (fun kv => p ++ [PStep.key kv.1])) ++ ps)
      | _ => refWalk f root ps

/-- Effect of the top-level resolveReferences call, whose return value
parseString also discards: when the root itself is a reference node
its replacement is computed (errors and divergence still propagate)
but thrown away and the root survives unchanged; otherwise the
in-place walk runs from the root position. -/
def refPassTop (f : Nat) (root : Node) : Except PErr Node :=
  match root with
  | vmap kvs =>
    match refPathOf kvs with
    | some (vstr q) =>
      match getVal root q with
      | none => .ok root
      | some v => (resolveDet f root (deepClone v)).map (fun _ => root)
    | some _ => .error .typeErr
    | none => refWalk f root [[]]
  | _ => refWalk f root [[]]

/-- parseString: the front half builds the intermediate tree, then the
fallback pass and the reference pass run over it and the result is
returned.  Fuel decreases across every nested parse (single-line
blocks, braced values, includes), so include cycles and reference
cycles surface as divergence. -/
def parseStringF (fsys : Fsys) (env : Env) : Nat → PS
  | 0 => fun _ _ _ => .error .diverge
  | f + 1 => fun ov content baseDir =>
    match parseCore (parseStringF fsys env f) env fsys f ov content baseDir with
    | .error e => .error e
    | .ok x => refPassTop f (rfTop x)

/-- String-equality test on a node. -/
def isStrEq (n : Node) (s : Str) : Bool :=
  match n with
  | vstr t => t = s
  | _ => false

/-- Non-empty string test on a node. -/
def strNonempty : Node → Bool
  | vstr p => !p.isEmpty
  | _ => false

/-- Exact shape of a resolver-created reference object: the two keys
in creation order, a string tag REF and a non-empty string path. -/
def genuineRefKvs : List (Str × Node) → Bool
  | [(k1, t), (k2, pv)] =>
    decide (k1 = "__type".data) && isStrEq t "REF".data &&
    decide (k2 = "path".data) && strNonempty pv
  | _ => false

mutual

/-- Well-tagged tree: every object carrying a __type key is either a
genuine reference object or a genuine fallback object (tag, main,
fallback in creation order, with well-tagged operands).  Trees built
from documents that never assign a literal __type key are well-tagged,
because only the value resolver creates such objects. -/
def wellTaggedB : Node → Bool
  | vseq xs _ => wtList xs
  | vmap kvs =>
    if (alGet kvs "__type".data).isSome then
      if genuineRefKvs kvs then true
      else
        match kvs with
        | [(k1, t), (k2, m), (k3, fb)] =>
          decide (k1 = "__type".data) && isStrEq t "FALLBACK".data &&
          decide (k2 = "main".data) && decide (k3 = "fallback".data) &&
          wellTaggedB m && wellTaggedB fb
        | _ => false
    else wtPairs kvs
  | _ => true

def wtList : List Node → Bool
  | [] => true
  | x :: xs => wellTaggedB x && wtList xs

def wtPairs : List (Str × Node) → Bool
  | [] => true
  | (_, v) :: kvs => wellTaggedB v && wtPairs kvs

end

mutual

/-- Tree whose tagged objects are all genuine reference objects: the
state of a well-tagged tree after the fallback pass. -/
def refOnlyB : Node → Bool
  | vseq xs _ => roList xs
  | vmap kvs =>
    if (alGet kvs "__type".data).isSome then genuineRefKvs kvs
    else roPairs kvs
  | _ => true

def roList : List Node → Bool
  | [] => true
  | x :: xs => refOnlyB x && roList xs

def roPairs : List (Str × Node) → Bool
  | [] => true
  | (_, v) :: kvs => refOnlyB v && roPairs kvs

end

mutual

/-- Tree containing no object with a __type key at all. -/
def noTypeKeyB : Node → Bool
  | vseq xs _ => ntList xs
  | vmap kvs => !(alGet kvs "__type".data).isSome && ntPairs kvs
  | _ => true

def ntList : List Node → Bool
  | [] => true
  | x :: xs => noTypeKeyB x && ntList xs

def ntPairs : List (Str × Node) → Bool
  | [] => true
  | (_, v) :: kvs => noTypeKeyB v && ntPairs kvs

end

mutual

/-- Deferred-marker detector of the claim: some object in the tree has
a __type tag equal to REF or to FALLBACK. -/
def containsDeferredB : Node → Bool
  | vseq xs props => cdList xs || cdPairs props
  | vmap kvs =>
    tagOf kvs = some "REF".data || tagOf kvs = some "FALLBACK".data || cdPairs kvs
  | _ => false

def cdList : List Node → Bool
  | [] => false
  | x :: xs => containsDeferredB x || cdList xs

def cdPairs : List (Str × Node) → Bool
  | [] => false
  | (_, v) :: kvs => containsDeferredB v || cdPairs kvs

end

mutual

/-- Tree in which no array carries stored own properties.  Both
resolver passes visit an array through its indices only, so anything
stored under a non-index key of an array — which the dotted
assignments of a document can create — is invisible to them and
survives the passes verbatim. -/
def propsFreeB : Node → Bool
  | vseq xs props => props.isEmpty && pfList xs
  | vmap kvs => pfPairs kvs
  | _ => true

def pfList : List Node → Bool
  | [] => true
  | x :: xs => propsFreeB x && pfList xs

def pfPairs : List (Str × Node) → Bool
  | [] => true
  | (_, v) :: kvs => propsFreeB v && pfPairs kvs

end

/-- Node that the reference branch of the resolver would treat as a
reference: tag REF with truthy path. -/
def isRefNodeB : Node → Bool
  | vmap kvs => (refPathOf kvs).isSome
  | _ => false

/-- Node tagged FALLBACK. -/
def isFBNodeB : Node → Bool
  | vmap kvs => isFBKvs kvs
  | _ => false

def envEmpty : Env := fun _ => none

def fsEmpty : Fsys := fun _ => none

theorem alGet_alSet_self (l : List (Str × Node)) (k : Str) (v : Node) :
    alGet (alSet l k v) k = some v := by
  induction l with
  | nil => simp [alSet, alGet]
  | cons hd tl ih =>
    obtain ⟨k', w⟩ := hd
    by_cases h : k' = k
    · simp [alSet, alGet, h]
    · simp [alSet, alGet, h, ih]

theorem alGet_alSet_ne (l : List (Str × Node)) (k' k : Str) (v : Node) (h : k' ≠ k) :
    alGet (alSet l k' v) k = alGet l k := by
  induction l with
  | nil => simp [alSet, alGet, h]
  | cons hd tl ih =>
    obtain ⟨k0, w⟩ := hd
    by_cases h0 : k0 = k'
    · subst h0
      simp [alSet, alGet, h]
    · simp [alSet, alGet, h0, ih]

/-- Result of the array-versus-array branch of mergeObjs on a target
array and a source array: the patch rule of the specification.  The
skip and the index-zero patch mutate the target array, so its stored
properties survive; a full override installs the source array with
its own properties. -/
def arrMergeRule (ta : List Node) (tp : List (Str × Node))
    (sa : List Node) (sp : List (Str × Node)) : Node :=
  match sa with
  | [e] =>
    if undefOrNull e then vseq ta tp
    else vseq (match ta with | [] => [e] | _ :: tl => e :: tl) tp
  | _ => vseq sa sp

/-- One entry step of mergeFold, as a standalone function of the
already-defined mergeObjs, for reasoning about the fold. -/
def mergeEntry (t : List (Str × Node)) (k : Str) (v : Node) : List (Str × Node) :=
  match v, alGet t k with
  | vmap sm, some (vmap tm) => alSet t k (mergeObjs (vmap tm) (vmap sm))
  | vseq sv sp, some (vseq tv tp) =>
    match sv with
    | [e] =>
      if undefOrNull e then t
      else alSet t k (vseq (match tv with | [] => [e] | _ :: tl => e :: tl) tp)
    | _ => alSet t k (vseq sv sp)
  | _, _ => alSet t k v

theorem mergeFold_cons (t : List (Str × Node)) (k : Str) (v : Node) (tl : List (Str × Node)) :
    mergeFold t ((k, v) :: tl) = mergeFold (mergeEntry t k v) tl := by
  have he : (∀ sm tm, v = vmap sm → alGet t k = some (vmap tm) → False) →
      (∀ sv sp tv tp, v = vseq sv sp → alGet t k = some (vseq tv tp) → False) →
      mergeFold t ((k, v) :: tl) = mergeFold (alSet t k v) tl :=
    fun h1 h2 => mergeFold.eq_6 t k tl v h1 h2
  rcases v with s0 | ⟨m0, e0⟩ | b0 | _ | _ | ⟨sv, sp⟩ | sm
  case vstr =>
    rw [he (by intro _ _ h _; cases h) (by intro _ _ _ _ h _; cases h)]
    unfold mergeEntry
    rcases alGet t k with _ | w
    · rfl
    · cases w <;> rfl
  case vnum =>
    rw [he (by intro _ _ h _; cases h) (by intro _ _ _ _ h _; cases h)]
    unfold mergeEntry
    rcases alGet t k with _ | w
    · rfl
    · cases w <;> rfl
  case vbool =>
    rw [he (by intro _ _ h _; cases h) (by intro _ _ _ _ h _; cases h)]
    unfold mergeEntry
    rcases alGet t k with _ | w
    · rfl
    · cases w <;> rfl
  case vnull =>
    rw [he (by intro _ _ h _; cases h) (by intro _ _ _ _ h _; cases h)]
    unfold mergeEntry
    rcases alGet t k with _ | w
    · rfl
    · cases w <;> rfl
  case vundef =>
    rw [he (by intro _ _ h _; cases h) (by intro _ _ _ _ h _; cases h)]
    unfold mergeEntry
    rcases alGet t k with _ | w
    · rfl
    · cases w <;> rfl
  case vseq =>
    rcases hv : alGet t k with _ | w
    · rw [he (by intro _ _ _ h; rw [hv] at h; cases h)
            (by intro _ _ _ _ _ h; rw [hv] at h; cases h)]
      unfold mergeEntry
      rw [hv]
    · rcases w with s0 | ⟨m0, e0⟩ | b0 | _ | _ | ⟨tv, tp⟩ | tm
      case vseq =>
        rcases sv with _ | ⟨e, sv2⟩
        · rw [mergeFold.eq_5 t k tl [] sp tv tp hv (by intro _ h; cases h)]
          unfold mergeEntry
          rw [hv]
        · rcases sv2 with _ | ⟨e2, sv3⟩
          · rcases tv with _ | ⟨th, ttl⟩
            · rw [mergeFold.eq_3 t k tl sp tp e hv]
              unfold mergeEntry
              rw [hv]
            · rw [mergeFold.eq_4 t k tl sp tp e ttl th hv]
              unfold mergeEntry
              rw [hv]
          · rw [mergeFold.eq_5 t k tl (e :: e2 :: sv3) sp tv tp hv (by intro _ h; cases h)]
            unfold mergeEntry
            rw [hv]
      all_goals
        rw [he (by intro _ _ h _; cases h)
              (by intro _ _ _ _ _ h; rw [hv] at h; cases h)]
        unfold mergeEntry
        rw [hv]
  case vmap =>
    rcases hv : alGet t k with _ | w
    · rw [he (by intro _ _ _ h; rw [hv] at h; cases h)
            (by intro _ _ _ _ h _; cases h)]
      unfold mergeEntry
      rw [hv]
    · rcases w with s0 | ⟨m0, e0⟩ | b0 | _ | _ | ⟨tv, tp⟩ | tm
      case vmap =>
        rw [mergeFold.eq_2 t k tl sm tm hv]
        unfold mergeEntry
        rw [hv]
      all_goals
        rw [he (by intro _ _ _ h; rw [hv] at h; cases h)
              (by intro _ _ _ _ h _; cases h)]
        unfold mergeEntry
        rw [hv]

theorem mergeFold_notin (s : List (Str × Node)) (k : Str) :
    ∀ t, k ∉ s.map Prod.fst → alGet (mergeFold t s) k = alGet t k := by
  induction s with
  | nil => intro t _; rfl
  | cons hd tl ih =>
    intro t hk
    obtain ⟨k', v⟩ := hd
    simp only [List.map_cons, List.mem_cons] at hk
    push_neg at hk
    obtain ⟨hne, hk'⟩ := hk
    have hne' : k' ≠ k := fun h => hne h.symm
    rw [mergeFold_cons, ih _ hk']
    unfold mergeEntry
    split <;> (try split) <;> (try split) <;>
      first
        | rfl
        | exact alGet_alSet_ne _ _ _ _ hne'

/-- C4: in mergeObjs, for every key where both sides hold arrays, a
one-element source array with an absent element leaves the target
array unchanged; a one-element source array with a present element
patches index zero only; any other source array replaces the target
array (arrMergeRule states exactly this case split). -/
theorem c4_merge_array_rule (t s : List (Str × Node)) (k : Str)
    (ta sa : List Node) (tp sp : List (Str × Node))
    (hnodup : (s.map Prod.fst).Nodup)
    (ht : alGet t k = some (vseq ta tp))
    (hs : alGet s k = some (vseq sa sp)) :
    mergeObjs (vmap t) (vmap s) = vmap (mergeFold t s) ∧
    alGet (mergeFold t s) k = some (arrMergeRule ta tp sa sp) := by
  refine ⟨rfl, ?_⟩
  induction s generalizing t with
  | nil => cases hs
  | cons hd tl ih =>
    obtain ⟨k', v⟩ := hd
    simp only [List.map_cons, List.nodup_cons] at hnodup
    obtain ⟨hnotin, hnodup'⟩ := hnodup
    rw [mergeFold_cons]
    by_cases hk : k' = k
    · subst hk
      rw [alGet] at hs
      simp at hs
      subst hs
      rw [mergeFold_notin tl k' _ hnotin]
      unfold mergeEntry
      rw [ht]
      rcases sa with _ | ⟨e, sa2⟩
      · simp [arrMergeRule, alGet_alSet_self]
      · rcases sa2 with _ | ⟨e2, sa3⟩
        · by_cases hu : undefOrNull e = true
          · simp [arrMergeRule, hu, ht]
          · simp only [Bool.not_eq_true] at hu
            simp [arrMergeRule, hu, alGet_alSet_self]
        · simp [arrMergeRule, alGet_alSet_self]
    · rw [alGet] at hs
      simp only [if_neg hk] at hs
      refine ih _ hnodup' ?_ hs
      unfold mergeEntry
      split <;> (try split) <;> (try split) <;>
        first
          | exact ht
          | (rw [alGet_alSet_ne _ _ _ _ hk]; exact ht)

/-- C4 witness: the two concrete merges of the specification example,
patching index zero for a one-element source and replacing for a
two-element source. -/
theorem c4_merge_array_rule_witness :
    alGet (mergeFold [("arr".data, vseq [vnum 1 0, vnum 2 0, vnum 3 0] [])]
        [("arr".data, vseq [vnum 9999 0] [])]) "arr".data =
      some (vseq [vnum 9999 0, vnum 2 0, vnum 3 0] []) ∧
    alGet (mergeFold [("arr".data, vseq [vnum 1 0, vnum 2 0, vnum 3 0] [])]
        [("arr".data, vseq [vnum 9999 0, vnum 8888 0] [])]) "arr".data =
      some (vseq [vnum 9999 0, vnum 8888 0] []) := by
  constructor
  · have h := c4_merge_array_rule
      [("arr".data, vseq [vnum 1 0, vnum 2 0, vnum 3 0] [])]
      [("arr".data, vseq [vnum 9999 0] [])] "arr".data
      [vnum 1 0, vnum 2 0, vnum 3 0] [vnum 9999 0] [] []
      (by simp) rfl rfl
    exact h.2
  · have h := c4_merge_array_rule
      [("arr".data, vseq [vnum 1 0, vnum 2 0, vnum 3 0] [])]
      [("arr".data, vseq [vnum 9999 0, vnum 8888 0] [])] "arr".data
      [vnum 1 0, vnum 2 0, vnum 3 0] [vnum 9999 0, vnum 8888 0] [] []
      (by simp) rfl rfl
    exact h.2

/-- C9: merging A then B into a fresh empty mapping is the same
computation as the single left-to-right reduce with mergeObjs over
the block list, as used by parseMultipleBlocks. -/
theorem c9_merge_roundtrip (a b : List (Str × Node)) :
    mergeObjs (mergeObjs (vmap []) (vmap a)) (vmap b) = mergeList [vmap a, vmap b] := rfl

/-- C7: a plain assignment whose resolved value is the absent
sentinel, over an existing value that is neither absent nor null,
leaves the object unchanged; concretely, k stays at the string
default when reassigned from an unset environment variable. -/
theorem c7_skip_on_absent :
    parseStringF fsEmpty envEmpty 20 [] "k = \"default\"\nk = $\x7b?UNSET_VAR\x7d".data [] =
      .ok (vmap [("k".data, vstr "default".data)]) ∧
    (∀ (ps : PS) (env : Env) (baseDir : Str) (obj : Node) (dottedKey rawVal : Str)
        (newVal : Node),
      parseInlineValueW ps env baseDir rawVal = .ok newVal →
      undefOrNull newVal = true →
      optUndefOrNull (getVal obj dottedKey) = false →
      assignValueW ps env baseDir obj dottedKey rawVal = .ok obj) := by
  refine ⟨rfl, ?_⟩
  intro ps env baseDir obj dottedKey rawVal newVal h1 h2 h3
  simp [assignValueW, h1, h2, h3, Bind.bind, Except.bind]

/-- C7 witness: the general skip clause applied at the concrete
document state of the example. -/
theorem c7_skip_on_absent_witness :
    assignValueW (parseStringF fsEmpty envEmpty 5) envEmpty []
      (vmap [("k".data, vstr "default".data)]) "k".data "$\x7b?UNSET_VAR\x7d".data =
      .ok (vmap [("k".data, vstr "default".data)]) :=
  c7_skip_on_absent.2 (parseStringF fsEmpty envEmpty 5) envEmpty []
    (vmap [("k".data, vstr "default".data)]) "k".data "$\x7b?UNSET_VAR\x7d".data
    vundef rfl rfl rfl

/-- C2 counterexample: with UNSET_VAR unset, the claimed document
binds k to the whole raw text as a string, not to fb: a single
bracket-or-brace group plus trailing tokens is never tokenized. -/
theorem c2_counterexample :
    parseStringF fsEmpty envEmpty 20 [] "k = $\x7b?UNSET_VAR\x7d or \"fb\"".data [] =
      .ok (vmap [("k".data, vstr "$\x7b?UNSET_VAR\x7d or \"fb\"".data)]) ∧
    some (vstr "$\x7b?UNSET_VAR\x7d or \"fb\"".data) ≠ some (vstr "fb".data) := by
  refine ⟨rfl, ?_⟩
  simp

/-- C2 amended: the three-token X or Y fallback form is recognised
only when more than one combined bracket or brace group is present;
with a single group plus trailing tokens the raw text is kept as one
string, while a line with two groups builds a Fallback node that the
fallback pass then collapses. -/
theorem c2_amended :
    parseStringF fsEmpty envEmpty 20 [] "k = $\x7b?UNSET_VAR\x7d or \"fb\"".data [] =
      .ok (vmap [("k".data, vstr "$\x7b?UNSET_VAR\x7d or \"fb\"".data)]) ∧
    parseInlineValueW (parseStringF fsEmpty envEmpty 19) envEmpty []
      "[1] or [2]".data = .ok (mkFB (vseq [vnum 1 0] []) (vseq [vnum 2 0] [])) ∧
    parseStringF fsEmpty envEmpty 20 [] "k = [1] or [2]".data [] =
      .ok (vmap [("k".data, vseq [vnum 1 0] [])]) :=
  ⟨rfl, rfl, rfl⟩

/-- C5 counterexample: appending a one-element null array to a
non-empty array is a skip, not a concatenation, so the claimed
universal concatenation rule fails on this input. -/
theorem c5_counterexample :
    parseStringF fsEmpty envEmpty 20 [] "arr = [1, 2, 3]\narr += [null]".data [] =
      .ok (vmap [("arr".data, vseq [vnum 1 0, vnum 2 0, vnum 3 0] [])]) ∧
    vseq [vnum 1 0, vnum 2 0, vnum 3 0] [] ≠
      vseq [vnum 1 0, vnum 2 0, vnum 3 0, vnull] [] := by
  refine ⟨rfl, ?_⟩
  simp

/-- C5 amended: for key plus-equals value, arrays concatenate except
that a one-element source array holding null or undefined over a
non-empty existing array is a skip; mappings deep-merge; strings
concatenate textually; an absent key takes the new value directly. -/
theorem c5_amended :
    (∀ (ps : PS) (env : Env) (baseDir : Str) (obj : Node) (key raw : Str)
        (nv ov0 : List Node) (np op : List (Str × Node)),
      parseInlineValueW ps env baseDir raw = .ok (vseq nv np) →
      getVal obj key = some (vseq ov0 op) →
      absentSingletonOver (vseq nv np) (some (vseq ov0 op)) = false →
      plusAssignValueW ps env baseDir obj key raw =
        setVal obj key (vseq (ov0 ++ nv) [])) ∧
    (∀ (ps : PS) (env : Env) (baseDir : Str) (obj : Node) (key raw : Str)
        (nm om : List (Str × Node)),
      parseInlineValueW ps env baseDir raw = .ok (vmap nm) →
      getVal obj key = some (vmap om) →
      plusAssignValueW ps env baseDir obj key raw =
        setVal obj key (mergeObjs (vmap om) (vmap nm))) ∧
    (∀ (ps : PS) (env : Env) (baseDir : Str) (obj : Node) (key raw : Str)
        (ns os : Str),
      parseInlineValueW ps env baseDir raw = .ok (vstr ns) →
      getVal obj key = some (vstr os) →
      plusAssignValueW ps env baseDir obj key raw =
        setVal obj key (vstr (os ++ ns))) ∧
    (∀ (ps : PS) (env : Env) (baseDir : Str) (obj : Node) (key raw : Str)
        (nv : Node),
      parseInlineValueW ps env baseDir raw = .ok nv →
      getVal obj key = none →
      plusAssignValueW ps env baseDir obj key raw = setVal obj key nv) := by
  refine ⟨?_, ?_, ?_, ?_⟩
  · intro ps env baseDir obj key raw nv ov0 np op h1 h2 h3
    simp [plusAssignValueW, h1, h2, h3, undefOrNull, Bind.bind, Except.bind]
  · intro ps env baseDir obj key raw nm om h1 h2
    simp [plusAssignValueW, h1, h2, undefOrNull, absentSingletonOver, Bind.bind, Except.bind]
  · intro ps env baseDir obj key raw ns os h1 h2
    simp [plusAssignValueW, h1, h2, undefOrNull, absentSingletonOver, Bind.bind, Except.bind]
  · intro ps env baseDir obj key raw nv h1 h2
    simp [plusAssignValueW, h1, h2, Bind.bind, Except.bind]

/-- C5 witness: the append example of the specification, with both
sides arrays and no skip, concatenating one to three with four. -/
theorem c5_amended_witness :
    plusAssignValueW (parseStringF fsEmpty envEmpty 5) envEmpty []
      (vmap [("arr".data, vseq [vnum 1 0, vnum 2 0, vnum 3 0] [])]) "arr".data "[4]".data =
      setVal (vmap [("arr".data, vseq [vnum 1 0, vnum 2 0, vnum 3 0] [])]) "arr".data
        (vseq ([vnum 1 0, vnum 2 0, vnum 3 0] ++ [vnum 4 0]) []) :=
  c5_amended.1 (parseStringF fsEmpty envEmpty 5) envEmpty []
    (vmap [("arr".data, vseq [vnum 1 0, vnum 2 0, vnum 3 0] [])]) "arr".data "[4]".data
    [vnum 4 0] [vnum 1 0, vnum 2 0, vnum 3 0] [] [] rfl rfl rfl

/-- C10: a single-line block is parsed by a recursive parseString
call receiving the caller's full options, so every override path is
created again inside the child (and once more at the root); a braced
value is parsed with the debug option only, so the child receives no
overrides.  The override value string is arbitrary. -/
theorem c10_options_propagation (v : Str) :
    parseStringF fsEmpty envEmpty 30 [("x.y".data, v)] "k \x7b a = 1 \x7d".data [] =
      .ok (vmap [("k".data, vmap [("a".data, vnum 1 0),
                                  ("x".data, vmap [("y".data, vstr v)])]),
                 ("x".data, vmap [("y".data, vstr v)])]) ∧
    parseStringF fsEmpty envEmpty 30 [("x.y".data, v)] "k = \x7b a = 1 \x7d".data [] =
      .ok (vmap [("k".data, vmap [("a".data, vnum 1 0)]),
                 ("x".data, vmap [("y".data, vstr v)])]) :=
  ⟨rfl, rfl⟩

/-- C6 counterexample: a parse with no include lines at all can still
fail fatally, with the TypeError thrown when a reference object whose
path property is a (truthy) object reaches getVal, so a missing
required include is not the only fatal condition. -/
theorem c6_counterexample :
    parseStringF fsEmpty envEmpty 20 []
      "a.__type = \"REF\"\na.path.b = 1".data [] = .error .typeErr ∧
    (∀ p, PErr.typeErr ≠ PErr.requiredMissing p) := by
  refine ⟨rfl, ?_⟩
  intro p h
  cases h

/-- C6 amended: a missing required include throws the fatal error
carrying the resolved path and it aborts the whole parse, while a
missing optional include leaves the including mapping unchanged; the
required-include error is the only fatal condition of include and
line handling, though forged reference objects can raise a type
error and cycles diverge. -/
theorem c6_amended :
    (∀ (ps : PS) (fsys : Fsys) (ov : Ov) (baseDir line : Str) (parent : Node)
        (file : Str),
      includeMatch line = some (.required file) →
      fsys (joinP baseDir file) = none →
      handleIncludeW ps fsys ov baseDir line parent =
        .error (.requiredMissing (joinP baseDir file))) ∧
    (∀ (ps : PS) (fsys : Fsys) (ov : Ov) (baseDir line : Str) (parent : Node)
        (file : Str),
      includeMatch line = some (.optional file) →
      fsys (joinP baseDir file) = none →
      handleIncludeW ps fsys ov baseDir line parent = .ok parent) ∧
    parseStringF fsEmpty envEmpty 20 []
      "k = 1\ninclude required(\"x.conf\")".data [] =
      .error (.requiredMissing "x.conf".data) ∧
    parseStringF fsEmpty envEmpty 20 [] "k = 1\ninclude \"x.conf\"".data [] =
      .ok (vmap [("k".data, vnum 1 0)]) := by
  refine ⟨?_, ?_, rfl, rfl⟩
  · intro ps fsys ov baseDir line parent file h1 h2
    unfold handleIncludeW
    rw [h1]
    simp [h2]
  · intro ps fsys ov baseDir line parent file h1 h2
    unfold handleIncludeW
    rw [h1]
    simp [h2]

/-- C6 witness: the required clause of the amended theorem applied at
the concrete include line with an empty file system. -/
theorem c6_amended_witness :
    handleIncludeW (parseStringF fsEmpty envEmpty 5) fsEmpty [] []
      "include required(\"x.conf\")".data (vmap []) =
      .error (.requiredMissing "x.conf".data) :=
  c6_amended.1 (parseStringF fsEmpty envEmpty 5) fsEmpty [] []
    "include required(\"x.conf\")".data (vmap []) "x.conf".data rfl rfl

/-- Intermediate tree of the self-referential one-line document. -/
def c3tree : Node := vmap [("a".data, mkRef "a".data)]

theorem c3_det_diverges : ∀ f, resolveDet f c3tree (mkRef "a".data) = .error .diverge := by
  intro f
  induction f with
  | zero => rfl
  | succ f ih => exact ih

theorem c3_walk_diverges :
    ∀ f, refWalk f c3tree [[PStep.key "a".data]] = .error .diverge := by
  intro f
  cases f with
  | zero => rfl
  | succ f =>
    show (match resolveDet f c3tree (deepClone (mkRef "a".data)) with
          | .error e => Except.error e
          | .ok t => refWalk f (setPath c3tree [PStep.key "a".data] t) []) =
        .error .diverge
    rw [show deepClone (mkRef "a".data) = mkRef "a".data from rfl, c3_det_diverges f]

theorem c3_walk_root_diverges : ∀ f, refWalk f c3tree [[]] = .error .diverge := by
  intro f
  cases f with
  | zero => rfl
  | succ f => exact c3_walk_diverges f

/-- C3: the reference pass does not terminate on a value-level
reference cycle.  For the one-line document a = dollar-brace-a-brace
the parse is an error for every fuel value: the identity-based
visited set never contains the deep-cloned lookup results, so the
source recurses forever (a stack overflow in JavaScript) instead of
stopping and returning the node as it stands. -/
theorem c3_cycle_diverges :
    ∀ f, parseStringF fsEmpty envEmpty f [] "a = $\x7ba\x7d".data [] = .error .diverge := by
  intro f
  match f with
  | 0 => rfl
  | 1 => rfl
  | 2 => rfl
  | f + 3 =>
    show refPassTop (f + 2) (rfTop c3tree) = .error .diverge
    exact c3_walk_root_diverges (f + 2)

theorem stripSign_of_ne (c : Char) (cs : Str) (h1 : c ≠ '+') (h2 : c ≠ '-') :
    stripSign (c :: cs) = c :: cs := by
  rw [stripSign.eq_def]
  split
  · rename_i heq
    injection heq with hc _
    exact absurd hc h1
  · rename_i heq
    injection heq with hc _
    exact absurd hc h2
  · rfl

theorem numShape_head (s : Str) (h : numShapeB s = true) :
    ∃ c cs, s = c :: cs ∧ (isDigitC c = true ∨ c = '+' ∨ c = '-') := by
  cases s with
  | nil => cases h
  | cons c cs =>
    refine ⟨c, cs, rfl, ?_⟩
    by_cases hp : c = '+'
    · exact Or.inr (Or.inl hp)
    by_cases hm : c = '-'
    · exact Or.inr (Or.inr hm)
    left
    unfold numShapeB at h
    rw [stripSign_of_ne c cs hp hm] at h
    by_cases hd : isDigitC c = true
    · exact hd
    · have hd' : isDigitC c = false := by
        revert hd
        cases isDigitC c <;> simp
      simp [List.takeWhile_cons, hd'] at h

theorem lowerC_not_letter (c : Char) (hd : isDigitC c = true ∨ c = '+' ∨ c = '-') :
    lowerC c ≠ 't' ∧ lowerC c ≠ 'f' ∧ lowerC c ≠ 'n' := by
  have hself : lowerC c = c := by
    unfold lowerC
    have hcond : ('A' ≤ c && c ≤ 'Z') = false := by
      rcases hd with hdig | rfl | rfl
      · unfold isDigitC at hdig
        simp only [Bool.and_eq_true, decide_eq_true_eq] at hdig
        obtain ⟨_, h9⟩ := hdig
        have h9' : c.toNat ≤ 57 := h9
        by_cases hA : 'A' ≤ c
        · exfalso
          have hA' : 65 ≤ c.toNat := hA
          omega
        · simp [hA]
      · decide
      · decide
    rw [hcond]
    rfl
  rw [hself]
  rcases hd with hdig | rfl | rfl
  · unfold isDigitC at hdig
    simp only [Bool.and_eq_true, decide_eq_true_eq] at hdig
    obtain ⟨_, h9⟩ := hdig
    have h9' : c.toNat ≤ 57 := h9
    refine ⟨?_, ?_, ?_⟩ <;>
      (intro hc; subst hc; exact absurd h9' (by decide))
  · decide
  · decide

theorem lowerS_head_ne (c : Char) (cs : Str) (d : Char) (ds : Str)
    (h : lowerC c ≠ d) : lowerS (c :: cs) ≠ d :: ds := by
  intro he
  rw [lowerS, List.map] at he
  injection he with h1 _
  exact h h1

/-- C8 counterexample: the literal 2.0000000000000000001 contains a
decimal point and is not mathematically an integer (its normalized
exact value m / 10 ^ e has e = 19, and e is minimal, so no integer
equals it), so the claim asserts a Number; the program keeps the
original text as a string instead, because parseFloat rounds the
literal to the integer double 2 and Number.isInteger fires.  Shown at
the conversion function and end to end. -/
theorem c8_counterexample :
    mcpStr "2.0000000000000000001".data = vstr "2.0000000000000000001".data ∧
    containsC '.' "2.0000000000000000001".data = true ∧
    (parseDecimal "2.0000000000000000001".data).2 ≠ 0 ∧
    parseStringF fsEmpty envEmpty 20 [] "a = 2.0000000000000000001".data [] =
      .ok (vmap [("a".data, vstr "2.0000000000000000001".data)]) := by
  refine ⟨rfl, rfl, ?_, rfl⟩
  intro hz
  rw [show parseDecimal "2.0000000000000000001".data =
    (20000000000000000001, 19) from rfl] at hz
  cases hz

/-- C8 (amended): typed coercion of a bare numeric-shaped token gives
a number, except that text containing a decimal point whose
parseFloat value is an integer double — Number.isInteger applied to
the rounded IEEE-754 binary64 value, which therefore also keeps the
text of fractions finer than double precision — is preserved as the
original string; concretely, a = 2.0 binds the string 2.0 and
b = 2.5 binds the number 2.5. -/
theorem c8_amended :
    parseStringF fsEmpty envEmpty 20 [] "a = 2.0\nb = 2.5".data [] =
      .ok (vmap [("a".data, vstr "2.0".data), ("b".data, vnum 25 1)]) ∧
    (∀ s : Str, numShapeB s = true → trimS s = s →
      mcpStr s =
        if containsC '.' s &&
            jsIsIntegerPF (parseDecimal s).1.natAbs (parseDecimal s).2 then vstr s
        else vnum (parseDecimal s).1 (parseDecimal s).2) := by
  refine ⟨rfl, ?_⟩
  intro s h ht
  obtain ⟨c, cs, rfl, hc⟩ := numShape_head s h
  obtain ⟨h1, h2, h3⟩ := lowerC_not_letter c hc
  have t1 : lowerS (c :: cs) ≠ "true".data := lowerS_head_ne c cs 't' "rue".data h1
  have t2 : lowerS (c :: cs) ≠ "false".data := lowerS_head_ne c cs 'f' "alse".data h2
  have t3 : lowerS (c :: cs) ≠ "null".data := lowerS_head_ne c cs 'n' "ull".data h3
  rcases hpd : parseDecimal (c :: cs) with ⟨m, e⟩
  unfold mcpStr
  rw [ht]
  simp [t1, t2, t3, h, hpd]

/-- C8 witness: the general clause applied at the three concrete
literals — the preserved string for 2.0, the number for 2.5, and the
preserved string for the fraction finer than double precision. -/
theorem c8_amended_witness :
    mcpStr "2.0".data =
      (if containsC '.' "2.0".data &&
          jsIsIntegerPF (parseDecimal "2.0".data).1.natAbs
            (parseDecimal "2.0".data).2 then vstr "2.0".data
       else vnum (parseDecimal "2.0".data).1 (parseDecimal "2.0".data).2) ∧
    mcpStr "2.5".data =
      (if containsC '.' "2.5".data &&
          jsIsIntegerPF (parseDecimal "2.5".data).1.natAbs
            (parseDecimal "2.5".data).2 then vstr "2.5".data
       else vnum (parseDecimal "2.5".data).1 (parseDecimal "2.5".data).2) ∧
    mcpStr "2.0000000000000000001".data =
      (if containsC '.' "2.0000000000000000001".data &&
          jsIsIntegerPF (parseDecimal "2.0000000000000000001".data).1.natAbs
            (parseDecimal "2.0000000000000000001".data).2
        then vstr "2.0000000000000000001".data
       else vnum (parseDecimal "2.0000000000000000001".data).1
            (parseDecimal "2.0000000000000000001".data).2) :=
  ⟨c8_amended.2 "2.0".data rfl rfl, c8_amended.2 "2.5".data rfl rfl,
   c8_amended.2 "2.0000000000000000001".data rfl rfl⟩

/-- Every tagged mapping reachable by a path is a genuine reference
object.  This is the state of the live root during the reference
pass. -/
def roPath (root : Node) : Prop :=
  ∀ q kvs, getPath root q = some (vmap kvs) →
    (alGet kvs "__type".data).isSome = true → genuineRefKvs kvs = true

/-- No mapping reachable by a path carries a __type key. -/
def ntPath (root : Node) : Prop :=
  ∀ q kvs, getPath root q = some (vmap kvs) → alGet kvs "__type".data = none

/-- No array reachable by a path carries stored own properties.  The
resolver passes only walk the indices of an array, so this is what
keeps the worklist coverage exhaustive. -/
def pfPath (root : Node) : Prop :=
  ∀ q xs props, getPath root q = some (vseq xs props) → props = []

/-- Every mapping strictly above position p is free of __type keys:
the shape of the spine through which the walk reached p. -/
def spineUntagged (root : Node) (p : TPath) : Prop :=
  ∀ u kvs, u <+: p → u ≠ p → getPath root u = some (vmap kvs) →
    alGet kvs "__type".data = none

/-- Every tagged mapping reachable in the root lies below one of the
worklist positions. -/
def coveredBy (root : Node) (ps : List TPath) : Prop :=
  ∀ q kvs, getPath root q = some (vmap kvs) →
    (alGet kvs "__type".data).isSome = true → ∃ p ∈ ps, p <+: q

/-- No node of the tree carries a __type tag equal to REF or to
FALLBACK: the no-deferred-markers property of the claim, stated over
the positions of the tree. -/
def noDeferredAt (r : Node) : Prop :=
  ∀ q kvs, getPath r q = some (vmap kvs) →
    tagOf kvs ≠ some "REF".data ∧ tagOf kvs ≠ some "FALLBACK".data

theorem getPath_append (p q : TPath) : ∀ n : Node,
    getPath n (p ++ q) =
      match getPath n p with
      | none => none
      | some c => getPath c q := by
  induction p with
  | nil => intro n; rfl
  | cons st p' ih =>
    intro n
    show getPath n (st :: (p' ++ q)) = _
    rw [getPath]
    conv_rhs => rw [getPath]
    cases hc : childAt st n with
    | none => simp [hc]
    | some c => simp [hc, ih c]

theorem ntPath_roPath (n : Node) (h : ntPath n) : roPath n := by
  intro q kvs hq ht
  rw [h q kvs hq] at ht
  cases ht

theorem roPath_at (n : Node) (q : TPath) (v : Node) (h : roPath n)
    (hq : getPath n q = some v) : roPath v := by
  intro q' kvs hq' ht
  refine h (q ++ q') kvs ?_ ht
  rw [getPath_append, hq]
  exact hq'

theorem ntPath_at (n : Node) (q : TPath) (v : Node) (h : ntPath n)
    (hq : getPath n q = some v) : ntPath v := by
  intro q' kvs hq'
  refine h (q ++ q') kvs ?_
  rw [getPath_append, hq]
  exact hq'

theorem pfPath_at (n : Node) (q : TPath) (v : Node) (h : pfPath n)
    (hq : getPath n q = some v) : pfPath v := by
  intro q' xs props hq'
  refine h (q ++ q') xs props ?_
  rw [getPath_append, hq]
  exact hq'

theorem getPath_nonobj (n : Node) (h : isObjLike n = false) (q : TPath)
    (kvs : List (Str × Node)) : getPath n q = some (vmap kvs) → False := by
  cases q with
  | nil =>
    intro hq
    rw [getPath] at hq
    injection hq with hh
    subst hh
    simp [isObjLike] at h
  | cons st q' =>
    intro hq
    rw [getPath] at hq
    cases st <;> cases n <;> simp [childAt] at hq <;> simp [isObjLike] at h

theorem roPath_nonobj (n : Node) (h : isObjLike n = false) : roPath n :=
  fun q kvs hq _ => absurd hq (fun hq' => getPath_nonobj n h q kvs hq')

theorem ntPath_nonobj (n : Node) (h : isObjLike n = false) : ntPath n :=
  fun q kvs hq => absurd hq (fun hq' => getPath_nonobj n h q kvs hq')

theorem getPath_nonobj_seq (n : Node) (h : isObjLike n = false) (q : TPath)
    (xs : List Node) (props : List (Str × Node)) :
    getPath n q = some (vseq xs props) → False := by
  cases q with
  | nil =>
    intro hq
    rw [getPath] at hq
    injection hq with hh
    subst hh
    simp [isObjLike] at h
  | cons st q' =>
    intro hq
    rw [getPath] at hq
    cases st <;> cases n <;> simp [childAt] at hq <;> simp [isObjLike] at h

theorem pfPath_nonobj (n : Node) (h : isObjLike n = false) : pfPath n :=
  fun q xs props hq => absurd hq (fun hq' => getPath_nonobj_seq n h q xs props hq')

theorem roPairs_alGet (kvs : List (Str × Node)) (k : Str) (v : Node)
    (h : roPairs kvs = true) (ha : alGet kvs k = some v) : refOnlyB v = true := by
  induction kvs with
  | nil => cases ha
  | cons hd tl ih =>
    obtain ⟨k0, v0⟩ := hd
    rw [roPairs, Bool.and_eq_true] at h
    rw [alGet] at ha
    by_cases hk : k0 = k
    · simp only [if_pos hk] at ha
      injection ha with hv
      subst hv
      exact h.1
    · simp only [if_neg hk] at ha
      exact ih h.2 ha

theorem roList_get (xs : List Node) (i : Nat) (v : Node)
    (h : roList xs = true) (hg : xs[i]? = some v) : refOnlyB v = true := by
  induction xs generalizing i with
  | nil => cases hg
  | cons hd tl ih =>
    rw [roList, Bool.and_eq_true] at h
    cases i with
    | zero =>
      rw [List.getElem?_cons_zero] at hg
      injection hg with hv
      subst hv
      exact h.1
    | succ j =>
      rw [List.getElem?_cons_succ] at hg
      exact ih j h.2 hg

theorem pfPairs_alGet (kvs : List (Str × Node)) (k : Str) (v : Node)
    (h : pfPairs kvs = true) (ha : alGet kvs k = some v) : propsFreeB v = true := by
  induction kvs with
  | nil => cases ha
  | cons hd tl ih =>
    obtain ⟨k0, v0⟩ := hd
    rw [pfPairs, Bool.and_eq_true] at h
    rw [alGet] at ha
    by_cases hk : k0 = k
    · simp only [if_pos hk] at ha
      injection ha with hv
      subst hv
      exact h.1
    · simp only [if_neg hk] at ha
      exact ih h.2 ha

theorem pfList_get (xs : List Node) (i : Nat) (v : Node)
    (h : pfList xs = true) (hg : xs[i]? = some v) : propsFreeB v = true := by
  induction xs generalizing i with
  | nil => cases hg
  | cons hd tl ih =>
    rw [pfList, Bool.and_eq_true] at h
    cases i with
    | zero =>
      rw [List.getElem?_cons_zero] at hg
      injection hg with hv
      subst hv
      exact h.1
    | succ j =>
      rw [List.getElem?_cons_succ] at hg
      exact ih j h.2 hg

theorem propsFreeB_childAt (n : Node) (st : PStep) (c : Node)
    (h : propsFreeB n = true) (hc : childAt st n = some c) : propsFreeB c = true := by
  cases st with
  | key k =>
    cases n with
    | vmap kvs => exact pfPairs_alGet kvs k c h hc
    | vseq xs props =>
      rw [propsFreeB, Bool.and_eq_true] at h
      have hp : props = [] := List.isEmpty_iff.mp h.1
      subst hp
      cases hc
    | vstr s => cases hc
    | vnum m e => cases hc
    | vbool b => cases hc
    | vnull => cases hc
    | vundef => cases hc
  | idx i =>
    cases n with
    | vseq xs props =>
      rw [propsFreeB, Bool.and_eq_true] at h
      have hc' : xs[i]? = some c := by
        simpa [childAt, List.get?_eq_getElem?] using hc
      exact pfList_get xs i c h.2 hc'
    | vmap kvs => cases hc
    | vstr s => cases hc
    | vnum m e => cases hc
    | vbool b => cases hc
    | vnull => cases hc
    | vundef => cases hc

theorem propsFreeB_pfPath (n : Node) (h : propsFreeB n = true) : pfPath n := by
  intro q
  induction q generalizing n with
  | nil =>
    intro xs props hq
    rw [getPath] at hq
    injection hq with hh
    subst hh
    rw [propsFreeB, Bool.and_eq_true] at h
    exact List.isEmpty_iff.mp h.1
  | cons st q' ih =>
    intro xs props hq
    rw [getPath] at hq
    cases hc : childAt st n with
    | none => rw [hc] at hq; cases hq
    | some c =>
      rw [hc] at hq
      exact ih c (propsFreeB_childAt n st c h hc) xs props hq

theorem isStrEq_spec (n : Node) (s : Str) (h : isStrEq n s = true) : n = vstr s := by
  cases n <;> simp [isStrEq] at h
  rw [h]

theorem strNonempty_spec (n : Node) (h : strNonempty n = true) :
    ∃ p, p ≠ [] ∧ n = vstr p := by
  cases n <;> simp [strNonempty] at h
  rename_i p
  exact ⟨p, by simpa using h, rfl⟩

theorem genuineRef_spec (kvs : List (Str × Node)) (h : genuineRefKvs kvs = true) :
    ∃ p, p ≠ [] ∧ kvs = [("__type".data, vstr "REF".data), ("path".data, vstr p)] := by
  rcases kvs with _ | ⟨⟨k1, v1⟩, _ | ⟨⟨k2, v2⟩, _ | ⟨e3, tl⟩⟩⟩
  · cases h
  · cases h
  · unfold genuineRefKvs at h
    simp only [Bool.and_eq_true, decide_eq_true_eq] at h
    obtain ⟨⟨⟨hk1, ht⟩, hk2⟩, hp⟩ := h
    obtain ⟨p, hpne, hv2⟩ := strNonempty_spec v2 hp
    have hv1 := isStrEq_spec v1 "REF".data ht
    subst hk1; subst hk2; subst hv1; subst hv2
    exact ⟨p, hpne, rfl⟩
  · cases h

theorem refPathOf_genuine (kvs : List (Str × Node)) (h : genuineRefKvs kvs = true) :
    ∃ p, p ≠ [] ∧ refPathOf kvs = some (vstr p) := by
  obtain ⟨p, hp, rfl⟩ := genuineRef_spec kvs h
  refine ⟨p, hp, ?_⟩
  have hpe : p.isEmpty = false := by
    cases p with
    | nil => exact absurd rfl hp
    | cons c cs => rfl
  simp [refPathOf, tagOf, alGet, jsTruthy, hpe]

theorem refOnlyB_childAt (n : Node) (st : PStep) (c : Node)
    (h : refOnlyB n = true) (hpf : propsFreeB n = true)
    (hc : childAt st n = some c) : refOnlyB c = true := by
  cases st with
  | key k =>
    cases n with
    | vseq xs props =>
      rw [propsFreeB, Bool.and_eq_true] at hpf
      have hp : props = [] := List.isEmpty_iff.mp hpf.1
      subst hp
      cases hc
    | vstr s => cases hc
    | vnum m e => cases hc
    | vbool b => cases hc
    | vnull => cases hc
    | vundef => cases hc
    | vmap kvs => ?_
    rw [refOnlyB] at h
    have hc' : alGet kvs k = some c := hc
    by_cases ht : (alGet kvs "__type".data).isSome = true
    · rw [if_pos ht] at h
      obtain ⟨p, _, hkvs⟩ := genuineRef_spec kvs h
      subst hkvs
      rw [alGet] at hc'
      by_cases h1 : "__type".data = k
      · simp only [if_pos h1] at hc'
        injection hc' with hv
        subst hv
        rfl
      · simp only [if_neg h1, alGet] at hc'
        by_cases h2 : "path".data = k
        · simp only [if_pos h2] at hc'
          injection hc' with hv
          subst hv
          rfl
        · simp only [if_neg h2, alGet] at hc'
          cases hc'
    · rw [if_neg ht] at h
      exact roPairs_alGet kvs k c h hc'
  | idx i =>
    cases n with
    | vseq xs props =>
      rw [refOnlyB] at h
      have hc' : xs[i]? = some c := by
        simpa [childAt, List.get?_eq_getElem?] using hc
      exact roList_get xs i c h hc'
    | vmap kvs => cases hc
    | vstr s => cases hc
    | vnum m e => cases hc
    | vbool b => cases hc
    | vnull => cases hc
    | vundef => cases hc

theorem refOnlyB_roPath (n : Node) (h : refOnlyB n = true)
    (hpf : propsFreeB n = true) : roPath n := by
  intro q
  induction q generalizing n with
  | nil =>
    intro kvs hq ht
    rw [getPath] at hq
    injection hq with hh
    subst hh
    rw [refOnlyB, if_pos ht] at h
    exact h
  | cons st q' ih =>
    intro kvs hq ht
    rw [getPath] at hq
    cases hc : childAt st n with
    | none => rw [hc] at hq; cases hq
    | some c =>
      rw [hc] at hq
      exact ih c (refOnlyB_childAt n st c h hpf hc)
        (propsFreeB_childAt n st c hpf hc) kvs hq ht

theorem roPath_getLeaf (c : Node) (p : Str) (h : roPath c) : roPath (getLeaf c p) := by
  cases c with
  | vmap kvs =>
    rw [getLeaf]
    cases ha : alGet kvs p with
    | none => exact roPath_nonobj vundef rfl
    | some v =>
      refine roPath_at (vmap kvs) [PStep.key p] v h ?_
      show (match childAt (PStep.key p) (vmap kvs) with
            | none => none
            | some c => some c) = some v
      simp [childAt, ha]
  | vseq xs props =>
    rw [getLeaf]
    by_cases hl : p = "length".data
    · rw [if_pos hl]
      exact roPath_nonobj (vnum (Int.ofNat xs.length) 0) rfl
    · rw [if_neg hl]
      cases hi : toIdx p with
      | none =>
        show roPath ((alGet props p).getD vundef)
        cases ha : alGet props p with
        | none => exact roPath_nonobj vundef rfl
        | some v =>
          rw [Option.getD_some]
          refine roPath_at (vseq xs props) [PStep.key p] v h ?_
          show (match childAt (PStep.key p) (vseq xs props) with
                | none => none
                | some c => some c) = some v
          simp [childAt, ha]
      | some i =>
        show roPath ((xs.get? i).getD vundef)
        rw [List.get?_eq_getElem?]
        cases hg : xs[i]? with
        | none => exact roPath_nonobj vundef rfl
        | some v =>
          rw [Option.getD_some]
          refine roPath_at (vseq xs props) [PStep.idx i] v h ?_
          show (match childAt (PStep.idx i) (vseq xs props) with
                | none => none
                | some c => some c) = some v
          simp [childAt, List.get?_eq_getElem?, hg]
  | vstr s => exact roPath_nonobj _ rfl
  | vnum m e => exact roPath_nonobj _ rfl
  | vbool b => exact roPath_nonobj _ rfl
  | vnull => exact roPath_nonobj _ rfl
  | vundef => exact roPath_nonobj _ rfl

theorem roPath_getValGo (parts : List Str) :
    ∀ c v, roPath c → getValGo c parts = some v → roPath v := by
  induction parts with
  | nil =>
    intro c v h hg
    cases c <;> cases hg <;> exact h
  | cons p parts' ih =>
    intro c v h hg
    rw [getValGo] at hg
    by_cases ho : isObjLike c = true
    · rw [if_pos ho] at hg
      exact ih (getLeaf c p) v (roPath_getLeaf c p h) hg
    · rw [if_neg ho] at hg
      cases hg

theorem roPath_getVal (c : Node) (s : Str) (v : Node) (h : roPath c)
    (hg : getVal c s = some v) : roPath v :=
  roPath_getValGo (splitCh '.' s) c v h hg

theorem getPath_key (kvs : List (Str × Node)) (k : Str) (v : Node)
    (h : alGet kvs k = some v) : getPath (vmap kvs) [PStep.key k] = some v := by
  simp [getPath, childAt, h]

theorem getPath_idx (xs : List Node) (props : List (Str × Node)) (i : Nat) (v : Node)
    (h : xs[i]? = some v) : getPath (vseq xs props) [PStep.idx i] = some v := by
  simp [getPath, childAt, List.get?_eq_getElem?, h]

theorem ntPath_seq (ys : List Node) (h : ∀ (i : Nat) (y : Node), ys[i]? = some y → ntPath y) :
    ntPath (vseq ys []) := by
  intro q kvs hq
  cases q with
  | nil => cases hq
  | cons st q' =>
    rw [getPath] at hq
    cases st with
    | key k => simp [childAt, alGet] at hq
    | idx i =>
      cases hc : childAt (PStep.idx i) (vseq ys []) with
      | none => rw [hc] at hq; cases hq
      | some c =>
        rw [hc] at hq
        have hc' : ys[i]? = some c := by
          simpa [childAt, List.get?_eq_getElem?] using hc
        exact h i c hc' q' kvs hq

theorem pfPath_seq (ys : List Node) (h : ∀ (i : Nat) (y : Node), ys[i]? = some y → pfPath y) :
    pfPath (vseq ys []) := by
  intro q xs props hq
  cases q with
  | nil =>
    rw [getPath] at hq
    injection hq with hh
    injection hh with _ he
    exact he.symm
  | cons st q' =>
    rw [getPath] at hq
    cases st with
    | key k => simp [childAt, alGet] at hq
    | idx i =>
      cases hc : childAt (PStep.idx i) (vseq ys []) with
      | none => rw [hc] at hq; cases hq
      | some c =>
        rw [hc] at hq
        have hc' : ys[i]? = some c := by
          simpa [childAt, List.get?_eq_getElem?] using hc
        exact h i c hc' q' xs props hq

theorem pfPath_map (kvs : List (Str × Node))
    (h : ∀ k v, alGet kvs k = some v → pfPath v) : pfPath (vmap kvs) := by
  intro q xs props hq
  cases q with
  | nil => cases hq
  | cons st q' =>
    rw [getPath] at hq
    cases st with
    | idx i => simp [childAt] at hq
    | key k =>
      cases hc : childAt (PStep.key k) (vmap kvs) with
      | none => rw [hc] at hq; cases hq
      | some c =>
        rw [hc] at hq
        exact h k c hc q' xs props hq

theorem ntPath_map (kvs : List (Str × Node))
    (h0 : alGet kvs "__type".data = none)
    (h : ∀ k v, alGet kvs k = some v → ntPath v) : ntPath (vmap kvs) := by
  intro q kvs' hq
  cases q with
  | nil =>
    rw [getPath] at hq
    injection hq with hh
    injection hh with he
    subst he
    exact h0
  | cons st q' =>
    rw [getPath] at hq
    cases st with
    | idx i => simp [childAt] at hq
    | key k =>
      cases hc : childAt (PStep.key k) (vmap kvs) with
      | none => rw [hc] at hq; cases hq
      | some c =>
        rw [hc] at hq
        exact h k c hc q' kvs' hq

theorem mapM_list_get (g : Node → Except PErr Node) :
    ∀ (xs ys : List Node), xs.mapM g = .ok ys →
    ∀ (i : Nat) (y : Node), ys[i]? = some y → ∃ x, xs[i]? = some x ∧ g x = .ok y := by
  intro xs
  induction xs with
  | nil =>
    intro ys hm i y hy
    rw [List.mapM_nil] at hm
    cases hm
    cases hy
  | cons x xs ih =>
    intro ys hm i y hy
    rw [List.mapM_cons] at hm
    cases hgx : g x with
    | error e =>
      simp only [hgx, Bind.bind, Except.bind] at hm
      cases hm
    | ok a =>
      cases hrest : xs.mapM g with
      | error e =>
        simp only [hgx, hrest, Bind.bind, Except.bind] at hm
        cases hm
      | ok as =>
        simp only [hgx, hrest, Bind.bind, Except.bind, pure, Except.pure,
          Except.ok.injEq] at hm
        subst hm
        cases i with
        | zero =>
          rw [List.getElem?_cons_zero] at hy
          injection hy with hy'
          subst hy'
          exact ⟨x, List.getElem?_cons_zero, hgx⟩
        | succ j =>
          rw [List.getElem?_cons_succ] at hy
          obtain ⟨x0, hx0, hgx0⟩ := ih as hrest j y hy
          exact ⟨x0, by rw [List.getElem?_cons_succ]; exact hx0, hgx0⟩

theorem mapM_pairs_alGet (g : Node → Except PErr Node) :
    ∀ (kvs out : List (Str × Node)),
    kvs.mapM (fun kv => (g kv.2).map (fun w => (kv.1, w))) = .ok out →
    ∀ k : Str, (alGet kvs k = none ∧ alGet out k = none) ∨
      (∃ v w, alGet kvs k = some v ∧ g v = .ok w ∧ alGet out k = some w) := by
  intro kvs
  induction kvs with
  | nil =>
    intro out hm k
    rw [List.mapM_nil] at hm
    cases hm
    exact Or.inl ⟨rfl, rfl⟩
  | cons kv kvs ih =>
    intro out hm k
    obtain ⟨k0, v0⟩ := kv
    rw [List.mapM_cons] at hm
    generalize hrest : kvs.mapM (fun kv => (g kv.2).map (fun w => (kv.1, w))) = mres at hm
    dsimp only at hm
    cases hg0 : g v0 with
    | error e =>
      simp only [hg0, Except.map, Bind.bind, Except.bind] at hm
      cases hm
    | ok w0 =>
      cases mres with
      | error e =>
        simp only [hg0, Except.map, Bind.bind, Except.bind] at hm
        cases hm
      | ok out' =>
        simp only [hg0, Except.map, Bind.bind, Except.bind, pure,
          Except.pure, Except.ok.injEq] at hm
        subst hm
        by_cases hk : k0 = k
        · refine Or.inr ⟨v0, w0, ?_, hg0, ?_⟩
          · rw [alGet, if_pos hk]
          · rw [alGet, if_pos hk]
        · rcases ih out' hrest k with ⟨h1, h2⟩ | ⟨v, w, h1, h2, h3⟩
          · refine Or.inl ⟨?_, ?_⟩
            · rw [alGet, if_neg hk]; exact h1
            · rw [alGet, if_neg hk]; exact h2
          · refine Or.inr ⟨v, w, ?_, h2, ?_⟩
            · rw [alGet, if_neg hk]; exact h1
            · rw [alGet, if_neg hk]; exact h3

theorem dcPairs_alGet : ∀ (kvs : List (Str × Node)) (k : Str),
    alGet (dcPairs kvs) k = (alGet kvs k).map deepClone := by
  intro kvs
  induction kvs with
  | nil => intro k; rfl
  | cons kv rest ih =>
    intro k
    obtain ⟨k0, v0⟩ := kv
    rw [dcPairs, alGet, alGet]
    by_cases hk : k0 = k
    · rw [if_pos hk, if_pos hk]; rfl
    · rw [if_neg hk, if_neg hk]; exact ih k

theorem dcList_get : ∀ (xs : List Node) (i : Nat),
    (dcList xs)[i]? = (xs[i]?).map deepClone := by
  intro xs
  induction xs with
  | nil => intro i; simp [dcList]
  | cons x rest ih =>
    intro i
    cases i with
    | zero =>
      rw [dcList, List.getElem?_cons_zero, List.getElem?_cons_zero]
      rfl
    | succ j =>
      rw [dcList, List.getElem?_cons_succ, List.getElem?_cons_succ]
      exact ih j

theorem childAt_deepClone (st : PStep) (n w : Node)
    (h : childAt st (deepClone n) = some w) :
    ∃ u, childAt st n = some u ∧ w = deepClone u := by
  cases st with
  | key k =>
    cases n with
    | vmap kvs =>
      have h' : alGet (dcPairs kvs) k = some w := h
      rw [dcPairs_alGet] at h'
      cases ha : alGet kvs k with
      | none => rw [ha] at h'; cases h'
      | some u =>
        rw [ha] at h'
        injection h' with hw
        exact ⟨u, ha, hw.symm⟩
    | vseq xs props =>
      have h' : alGet ([] : List (Str × Node)) k = some w := h
      cases h'
    | vstr s => cases h
    | vnum m e => cases h
    | vbool b => cases h
    | vnull => cases h
    | vundef => cases h
  | idx i =>
    cases n with
    | vseq xs props =>
      have h' : (dcList xs)[i]? = some w := by
        simpa [childAt, deepClone, List.get?_eq_getElem?] using h
      rw [dcList_get] at h'
      cases hg : xs[i]? with
      | none => rw [hg] at h'; cases h'
      | some u =>
        rw [hg] at h'
        injection h' with hw
        refine ⟨u, ?_, hw.symm⟩
        show xs.get? i = some u
        rw [List.get?_eq_getElem?]
        exact hg
    | vmap kvs => cases h
    | vstr s => cases h
    | vnum m e => cases h
    | vbool b => cases h
    | vnull => cases h
    | vundef => cases h

theorem getPath_deepClone (q : TPath) : ∀ (n w : Node),
    getPath (deepClone n) q = some w →
    ∃ u, getPath n q = some u ∧ w = deepClone u := by
  induction q with
  | nil =>
    intro n w h
    rw [getPath] at h
    injection h with hw
    exact ⟨n, rfl, hw.symm⟩
  | cons st q' ih =>
    intro n w h
    rw [getPath] at h
    cases hc : childAt st (deepClone n) with
    | none => rw [hc] at h; cases h
    | some c =>
      rw [hc] at h
      obtain ⟨u, hu, hcu⟩ := childAt_deepClone st n c hc
      subst hcu
      obtain ⟨u2, hu2, hw⟩ := ih u w h
      refine ⟨u2, ?_, hw⟩
      rw [getPath, hu]
      exact hu2

theorem dc_roPath (v : Node) (h : roPath v) : roPath (deepClone v) := by
  intro q kvs2 hq ht
  obtain ⟨u, hu, hw⟩ := getPath_deepClone q v (vmap kvs2) hq
  cases u with
  | vmap kvs0 =>
    have hk2 : kvs2 = dcPairs kvs0 := by
      injection hw with hw2
    subst hk2
    have ht0 : (alGet kvs0 "__type".data).isSome = true := by
      rw [dcPairs_alGet] at ht
      cases ha : alGet kvs0 "__type".data with
      | none => rw [ha] at ht; cases ht
      | some t => rfl
    have hgen := h q kvs0 hu ht0
    obtain ⟨p, hpne, hkvs⟩ := genuineRef_spec kvs0 hgen
    subst hkvs
    show genuineRefKvs [("__type".data, vstr "REF".data), ("path".data, vstr p)] = true
    have hpe : p.isEmpty = false := by
      cases p with
      | nil => exact absurd rfl hpne
      | cons a as => rfl
    show (!p.isEmpty) = true
    rw [hpe]
    rfl
  | vseq xs props => cases hw
  | vstr s => cases hw
  | vnum m e => cases hw
  | vbool b => cases hw
  | vnull => cases hw
  | vundef => cases hw

theorem dc_propsFree :
    (∀ n, propsFreeB (deepClone n) = true) ∧
    (∀ kvs, pfPairs (dcPairs kvs) = true) ∧
    (∀ xs, pfList (dcList xs) = true) := by
  refine deepClone.mutual_induct
    (fun n => propsFreeB (deepClone n) = true)
    (fun kvs => pfPairs (dcPairs kvs) = true)
    (fun xs => pfList (dcList xs) = true)
    ?_ ?_ ?_ ?_ ?_ ?_ ?_
  · intro xs props ih
    show (List.isEmpty ([] : List (Str × Node)) && pfList (dcList xs)) = true
    simpa using ih
  · intro kvs ih
    exact ih
  · intro x h1 h2
    cases x with
    | vseq xs props => exact (h1 xs props rfl).elim
    | vmap kvs => exact (h2 kvs rfl).elim
    | vstr s => rfl
    | vnum m e => rfl
    | vbool b => rfl
    | vnull => rfl
    | vundef => rfl
  · rfl
  · intro x xs ih1 ih2
    show (propsFreeB (deepClone x) && pfList (dcList xs)) = true
    rw [ih1, ih2]
    rfl
  · rfl
  · intro k v rest ih1 ih2
    show (propsFreeB (deepClone v) && pfPairs (dcPairs rest)) = true
    rw [ih1, ih2]
    rfl

theorem detNt (root : Node) (hroot : roPath root) :
    ∀ (f : Nat) (n w : Node), roPath n → pfPath n →
    resolveDet f root n = .ok w → ntPath w ∧ pfPath w := by
  intro f
  induction f with
  | zero => intro n w _ _ h; cases h
  | succ f ih =>
    intro n w hn hpf hw
    cases n with
    | vseq xs props =>
      have hp0 : props = [] := hpf [] xs props rfl
      subst hp0
      simp only [resolveDet] at hw
      generalize hm : xs.mapM (fun x => resolveDet f root x) = mres at hw
      cases mres with
      | error e => cases hw
      | ok ys =>
        simp only [Except.map, Except.ok.injEq] at hw
        subst hw
        constructor
        · refine ntPath_seq ys ?_
          intro i y hy
          obtain ⟨x, hx, hgx⟩ := mapM_list_get _ xs ys hm i y hy
          have hgp := getPath_idx xs [] i x hx
          exact (ih x y (roPath_at _ [PStep.idx i] x hn hgp)
            (pfPath_at _ [PStep.idx i] x hpf hgp) hgx).1
        · refine pfPath_seq ys ?_
          intro i y hy
          obtain ⟨x, hx, hgx⟩ := mapM_list_get _ xs ys hm i y hy
          have hgp := getPath_idx xs [] i x hx
          exact (ih x y (roPath_at _ [PStep.idx i] x hn hgp)
            (pfPath_at _ [PStep.idx i] x hpf hgp) hgx).2
    | vmap kvs =>
      simp only [resolveDet] at hw
      cases hr : refPathOf kvs with
      | none =>
        simp only [hr] at hw
        have h0 : alGet kvs "__type".data = none := by
          by_cases ht : (alGet kvs "__type".data).isSome = true
          · have hgen := hn [] kvs rfl ht
            obtain ⟨p, _, hrp⟩ := refPathOf_genuine kvs hgen
            rw [hrp] at hr
            cases hr
          · exact Option.not_isSome_iff_eq_none.mp ht
        generalize hm :
            kvs.mapM (fun kv => (resolveDet f root kv.2).map (fun w => (kv.1, w))) = mres at hw
        cases mres with
        | error e => cases hw
        | ok out =>
          simp only [Except.map, Except.ok.injEq] at hw
          subst hw
          have h0' : alGet out "__type".data = none := by
            rcases mapM_pairs_alGet _ kvs out hm "__type".data with ⟨_, h2⟩ | ⟨v, w2, h1, _, _⟩
            · exact h2
            · rw [h0] at h1; cases h1
          constructor
          · refine ntPath_map out h0' ?_
            intro k v hv
            rcases mapM_pairs_alGet _ kvs out hm k with ⟨_, h2⟩ | ⟨v0, w0, h1, h2, h3⟩
            · rw [h2] at hv; cases hv
            · rw [h3] at hv
              injection hv with hv2
              subst hv2
              have hgp := getPath_key kvs k v0 h1
              exact (ih v0 w0 (roPath_at _ [PStep.key k] v0 hn hgp)
                (pfPath_at _ [PStep.key k] v0 hpf hgp) h2).1
          · refine pfPath_map out ?_
            intro k v hv
            rcases mapM_pairs_alGet _ kvs out hm k with ⟨_, h2⟩ | ⟨v0, w0, h1, h2, h3⟩
            · rw [h2] at hv; cases hv
            · rw [h3] at hv
              injection hv with hv2
              subst hv2
              have hgp := getPath_key kvs k v0 h1
              exact (ih v0 w0 (roPath_at _ [PStep.key k] v0 hn hgp)
                (pfPath_at _ [PStep.key k] v0 hpf hgp) h2).2
      | some pv =>
        cases pv with
        | vstr q =>
          simp only [hr] at hw
          cases hv : getVal root q with
          | none =>
            rw [hv] at hw
            cases hw
            exact ⟨ntPath_nonobj vundef rfl, pfPath_nonobj vundef rfl⟩
          | some v =>
            rw [hv] at hw
            have hro2 : roPath (deepClone v) := dc_roPath v (roPath_getVal root q v hroot hv)
            have hpf2 : pfPath (deepClone v) :=
              propsFreeB_pfPath (deepClone v) (dc_propsFree.1 v)
            exact ih (deepClone v) w hro2 hpf2 hw
        | vnum m e => simp only [hr] at hw; cases hw
        | vbool b => simp only [hr] at hw; cases hw
        | vnull => simp only [hr] at hw; cases hw
        | vundef => simp only [hr] at hw; cases hw
        | vseq ys props => simp only [hr] at hw; cases hw
        | vmap kvs2 => simp only [hr] at hw; cases hw
    | vstr s =>
      simp only [resolveDet] at hw
      cases hw
      exact ⟨ntPath_nonobj _ rfl, pfPath_nonobj _ rfl⟩
    | vnum m e =>
      simp only [resolveDet] at hw
      cases hw
      exact ⟨ntPath_nonobj _ rfl, pfPath_nonobj _ rfl⟩
    | vbool b =>
      simp only [resolveDet] at hw
      cases hw
      exact ⟨ntPath_nonobj _ rfl, pfPath_nonobj _ rfl⟩
    | vnull =>
      simp only [resolveDet] at hw
      cases hw
      exact ⟨ntPath_nonobj _ rfl, pfPath_nonobj _ rfl⟩
    | vundef =>
      simp only [resolveDet] at hw
      cases hw
      exact ⟨ntPath_nonobj _ rfl, pfPath_nonobj _ rfl⟩

theorem list_set_get_self :
    ∀ (xs : List Node) (i : Nat) (c0 c : Node), xs[i]? = some c0 →
    (xs.set i c)[i]? = some c := by
  intro xs
  induction xs with
  | nil => intro i c0 c h; cases h
  | cons x xs ih =>
    intro i c0 c h
    cases i with
    | zero => rw [List.set_cons_zero, List.getElem?_cons_zero]
    | succ j =>
      rw [List.getElem?_cons_succ] at h
      rw [List.set_cons_succ, List.getElem?_cons_succ]
      exact ih j c0 c h

theorem list_set_get_ne :
    ∀ (xs : List Node) (i j : Nat) (c : Node), i ≠ j →
    (xs.set i c)[j]? = xs[j]? := by
  intro xs
  induction xs with
  | nil => intro i j c h; cases i <;> rfl
  | cons x xs ih =>
    intro i j c h
    cases i with
    | zero =>
      cases j with
      | zero => exact absurd rfl h
      | succ j' => rw [List.set_cons_zero, List.getElem?_cons_succ, List.getElem?_cons_succ]
    | succ i' =>
      cases j with
      | zero => rw [List.set_cons_succ, List.getElem?_cons_zero, List.getElem?_cons_zero]
      | succ j' =>
        rw [List.set_cons_succ, List.getElem?_cons_succ, List.getElem?_cons_succ]
        exact ih i' j' c (fun he => h (congrArg Nat.succ he))

theorem childAt_replace_self (st : PStep) (n c0 c : Node)
    (h : childAt st n = some c0) :
    childAt st (replaceChild st n c) = some c := by
  cases st with
  | key k =>
    cases n with
    | vmap kvs => exact alGet_alSet_self kvs k c
    | vseq xs props =>
      show alGet (alSet props k c) k = some c
      exact alGet_alSet_self props k c
    | vstr s => cases h
    | vnum m e => cases h
    | vbool b => cases h
    | vnull => cases h
    | vundef => cases h
  | idx i =>
    cases n with
    | vseq xs props =>
      show (xs.set i c).get? i = some c
      rw [List.get?_eq_getElem?]
      refine list_set_get_self xs i c0 c ?_
      rw [← List.get?_eq_getElem?]
      exact h
    | vmap kvs => cases h
    | vstr s => cases h
    | vnum m e => cases h
    | vbool b => cases h
    | vnull => cases h
    | vundef => cases h

theorem childAt_replace_ne (st st' : PStep) (n c : Node) (h : st ≠ st') :
    childAt st' (replaceChild st n c) = childAt st' n := by
  cases st with
  | key k =>
    cases n with
    | vmap kvs =>
      cases st' with
      | key k2 =>
        have hk : k ≠ k2 := fun he => h (congrArg PStep.key he)
        exact alGet_alSet_ne kvs k k2 c hk
      | idx i => rfl
    | vseq xs props =>
      cases st' with
      | key k2 =>
        have hk : k ≠ k2 := fun he => h (congrArg PStep.key he)
        show alGet (alSet props k c) k2 = alGet props k2
        exact alGet_alSet_ne props k k2 c hk
      | idx i => rfl
    | vstr s => rfl
    | vnum m e => rfl
    | vbool b => rfl
    | vnull => rfl
    | vundef => rfl
  | idx i =>
    cases n with
    | vseq xs props =>
      cases st' with
      | key k2 => rfl
      | idx j =>
        have hij : i ≠ j := fun he => h (congrArg PStep.idx he)
        show (xs.set i c).get? j = xs.get? j
        rw [List.get?_eq_getElem?, List.get?_eq_getElem?]
        exact list_set_get_ne xs i j c hij
    | vmap kvs => rfl
    | vstr s => rfl
    | vnum m e => rfl
    | vbool b => rfl
    | vnull => rfl
    | vundef => rfl

theorem tagged_setPath :
    ∀ (p : TPath) (root c0 t : Node), getPath root p = some c0 →
    spineUntagged root p →
    ∀ (q : TPath) (kvs' : List (Str × Node)),
      getPath (setPath root p t) q = some (vmap kvs') →
      (alGet kvs' "__type".data).isSome = true →
      (∃ r, q = p ++ r ∧ getPath t r = some (vmap kvs')) ∨
      (getPath root q = some (vmap kvs') ∧ ¬ p <+: q) := by
  intro p
  induction p with
  | nil =>
    intro root c0 t hp hs q kvs' hq ht
    exact Or.inl ⟨q, rfl, hq⟩
  | cons st p' ih =>
    intro root c0 t hp hs q kvs' hq ht
    rw [getPath] at hp
    cases hc : childAt st root with
    | none => rw [hc] at hp; cases hp
    | some c =>
      rw [hc] at hp
      have hset : setPath root (st :: p') t = replaceChild st root (setPath c p' t) := by
        rw [setPath, hc]
      rw [hset] at hq
      cases q with
      | nil =>
        rw [getPath] at hq
        injection hq with hq'
        cases st with
        | key k =>
          cases root with
          | vmap kvs =>
            have hroot0 : alGet kvs "__type".data = none := by
              refine hs [] kvs List.nil_prefix ?_ rfl
              intro hcontra; cases hcontra
            by_cases hk : k = "__type".data
            · subst hk
              have hc' : alGet kvs "__type".data = some c := hc
              rw [hroot0] at hc'
              cases hc'
            · exfalso
              injection hq' with hq''
              subst hq''
              rw [alGet_alSet_ne kvs k "__type".data _ hk, hroot0] at ht
              cases ht
          | vseq xs props => cases hq'
          | vstr s => cases hc
          | vnum m e => cases hc
          | vbool b => cases hc
          | vnull => cases hc
          | vundef => cases hc
        | idx i =>
          cases root with
          | vseq xs props => cases hq'
          | vmap kvs => cases hc
          | vstr s => cases hc
          | vnum m e => cases hc
          | vbool b => cases hc
          | vnull => cases hc
          | vundef => cases hc
      | cons st' q' =>
        rw [getPath] at hq
        by_cases hst : st' = st
        · subst hst
          have hcx : childAt st' (replaceChild st' root (setPath c p' t)) =
              some (setPath c p' t) :=
            childAt_replace_self st' root c (setPath c p' t) hc
          rw [hcx] at hq
          have hs' : spineUntagged c p' := by
            intro u kvs hu hne hg
            refine hs (st' :: u) kvs (List.cons_prefix_cons.mpr ⟨rfl, hu⟩) ?_ ?_
            · intro hcontra
              injection hcontra with _ hh
              exact hne hh
            · rw [getPath, hc]; exact hg
          rcases ih c c0 t hp hs' q' kvs' hq ht with ⟨r, hr1, hr2⟩ | ⟨h1, h2⟩
          · refine Or.inl ⟨r, ?_, hr2⟩
            rw [hr1]
            rfl
          · refine Or.inr ⟨?_, ?_⟩
            · rw [getPath, hc]; exact h1
            · intro hpre
              exact h2 (List.cons_prefix_cons.mp hpre).2
        · have hcx : childAt st' (replaceChild st root (setPath c p' t)) =
              childAt st' root :=
            childAt_replace_ne st st' root (setPath c p' t) (fun he => hst he.symm)
          rw [hcx] at hq
          cases hcc : childAt st' root with
          | none => rw [hcc] at hq; cases hq
          | some c'' =>
            rw [hcc] at hq
            refine Or.inr ⟨?_, ?_⟩
            · rw [getPath, hcc]; exact hq
            · intro hpre
              exact hst (List.cons_prefix_cons.mp hpre).1.symm

theorem getElem_lt : ∀ (xs : List Node) (i : Nat) (c : Node),
    xs[i]? = some c → i < xs.length := by
  intro xs
  induction xs with
  | nil => intro i c h; cases h
  | cons x xs ih =>
    intro i c h
    cases i with
    | zero => exact Nat.succ_pos _
    | succ j =>
      rw [List.getElem?_cons_succ] at h
      exact Nat.succ_lt_succ (ih j c h)

theorem alGet_mem_key : ∀ (kvs : List (Str × Node)) (k : Str) (v : Node),
    alGet kvs k = some v → ∃ kv ∈ kvs, kv.1 = k := by
  intro kvs
  induction kvs with
  | nil => intro k v h; cases h
  | cons kv0 kvs ih =>
    intro k v h
    obtain ⟨k0, v0⟩ := kv0
    rw [alGet] at h
    by_cases hk : k0 = k
    · exact ⟨(k0, v0), List.mem_cons_self _ _, hk⟩
    · rw [if_neg hk] at h
      obtain ⟨kv, hm, hk1⟩ := ih k v h
      exact ⟨kv, List.mem_cons_of_mem _ hm, hk1⟩

theorem prefix_snoc_of_ne (u p : TPath) (x : PStep)
    (h : u <+: p ++ [x]) (hne : u ≠ p ++ [x]) : u <+: p := by
  obtain ⟨r, hr⟩ := h
  cases r with
  | nil => rw [List.append_nil] at hr; exact absurd hr hne
  | cons y r' =>
    refine List.prefix_of_prefix_length_le ⟨y :: r', hr⟩ ⟨[x], rfl⟩ ?_
    have hl := congrArg List.length hr
    simp [List.length_append] at hl
    omega

theorem seqP_setPath :
    ∀ (p : TPath) (root c0 t : Node), getPath root p = some c0 →
    pfPath root →
    ∀ (q : TPath) (xs : List Node) (props : List (Str × Node)),
      getPath (setPath root p t) q = some (vseq xs props) →
      (∃ r, q = p ++ r ∧ getPath t r = some (vseq xs props)) ∨
      (∃ xs0, getPath root q = some (vseq xs0 props)) := by
  intro p
  induction p with
  | nil =>
    intro root c0 t hp hpf q xs props hq
    exact Or.inl ⟨q, rfl, hq⟩
  | cons st p' ih =>
    intro root c0 t hp hpf q xs props hq
    rw [getPath] at hp
    cases hc : childAt st root with
    | none => rw [hc] at hp; cases hp
    | some c =>
      rw [hc] at hp
      have hg1 : getPath root [st] = some c := by
        simp [getPath, hc]
      have hset : setPath root (st :: p') t = replaceChild st root (setPath c p' t) := by
        rw [setPath, hc]
      rw [hset] at hq
      cases q with
      | nil =>
        rw [getPath] at hq
        injection hq with hq'
        cases st with
        | key k =>
          cases root with
          | vmap kvs => cases hq'
          | vseq xs2 props2 =>
            have hp2 : props2 = [] := hpf [] xs2 props2 rfl
            subst hp2
            cases hc
          | vstr s => cases hc
          | vnum m e => cases hc
          | vbool b => cases hc
          | vnull => cases hc
          | vundef => cases hc
        | idx i =>
          cases root with
          | vseq xs2 props2 =>
            injection hq' with hxs hpr
            subst hpr
            exact Or.inr ⟨xs2, rfl⟩
          | vmap kvs => cases hc
          | vstr s => cases hc
          | vnum m e => cases hc
          | vbool b => cases hc
          | vnull => cases hc
          | vundef => cases hc
      | cons st' q' =>
        rw [getPath] at hq
        by_cases hst : st' = st
        · subst hst
          have hcx : childAt st' (replaceChild st' root (setPath c p' t)) =
              some (setPath c p' t) :=
            childAt_replace_self st' root c (setPath c p' t) hc
          rw [hcx] at hq
          rcases ih c c0 t hp (pfPath_at root [st'] c hpf hg1) q' xs props hq with
            ⟨r, hr1, hr2⟩ | ⟨xs0, h1⟩
          · refine Or.inl ⟨r, ?_, hr2⟩
            rw [hr1]
            rfl
          · refine Or.inr ⟨xs0, ?_⟩
            rw [getPath, hc]
            exact h1
        · have hcx : childAt st' (replaceChild st root (setPath c p' t)) =
              childAt st' root :=
            childAt_replace_ne st st' root (setPath c p' t) (fun he => hst he.symm)
          rw [hcx] at hq
          cases hcc : childAt st' root with
          | none => rw [hcc] at hq; cases hq
          | some c2 =>
            rw [hcc] at hq
            refine Or.inr ⟨xs, ?_⟩
            rw [getPath, hcc]
            exact hq

theorem setStep_inv (root n0 t : Node) (p : TPath) (ps' : List TPath)
    (hro : roPath root) (hpf : pfPath root)
    (hsp : ∀ p' ∈ p :: ps', spineUntagged root p')
    (hcov : coveredBy root (p :: ps'))
    (hg : getPath root p = some n0)
    (hnt : ntPath t) (hpt : pfPath t) :
    roPath (setPath root p t) ∧ pfPath (setPath root p t) ∧
    (∀ p' ∈ ps', spineUntagged (setPath root p t) p') ∧
    coveredBy (setPath root p t) ps' := by
  have hspp : spineUntagged root p := hsp p (List.mem_cons_self _ _)
  refine ⟨?_, ?_, ?_, ?_⟩
  · intro q kvs hq ht
    rcases tagged_setPath p root n0 t hg hspp q kvs hq ht with ⟨r, _, hr2⟩ | ⟨h1, _⟩
    · rw [hnt r kvs hr2] at ht; cases ht
    · exact hro q kvs h1 ht
  · intro q xs props hq
    rcases seqP_setPath p root n0 t hg hpf q xs props hq with ⟨r, _, hr2⟩ | ⟨xs0, h1⟩
    · exact hpt r xs props hr2
    · exact hpf q xs0 props h1
  · intro p' hp' u kvs hu hne hgp
    by_cases ht : (alGet kvs "__type".data).isSome = true
    · rcases tagged_setPath p root n0 t hg hspp u kvs hgp ht with ⟨r, _, hr2⟩ | ⟨h1, _⟩
      · exact hnt r kvs hr2
      · exact hsp p' (List.mem_cons_of_mem _ hp') u kvs hu hne h1
    · exact Option.not_isSome_iff_eq_none.mp ht
  · intro q kvs hq ht
    rcases tagged_setPath p root n0 t hg hspp q kvs hq ht with ⟨r, _, hr2⟩ | ⟨h1, hnp⟩
    · rw [hnt r kvs hr2] at ht; cases ht
    · obtain ⟨p2, hp2, hpre⟩ := hcov q kvs h1 ht
      cases List.mem_cons.mp hp2 with
      | inl he => subst he; exact absurd hpre hnp
      | inr hm => exact ⟨p2, hm, hpre⟩

theorem seq_enq_inv (root : Node) (p : TPath) (ps' : List TPath) (xs : List Node)
    (props : List (Str × Node))
    (hg : getPath root p = some (vseq xs props))
    (hpf : pfPath root)
    (hsp : ∀ p' ∈ p :: ps', spineUntagged root p')
    (hcov : coveredBy root (p :: ps')) :
    (∀ p' ∈ (List.range xs.length).map (fun i => p ++ [PStep.idx i]) ++ ps',
      spineUntagged root p') ∧
    coveredBy root ((List.range xs.length).map (fun i => p ++ [PStep.idx i]) ++ ps') := by
  have hp0 : props = [] := hpf p xs props hg
  subst hp0
  constructor
  · intro p' hp'
    rcases List.mem_append.mp hp' with hin | hin
    · obtain ⟨i, hi, hpi⟩ := List.mem_map.mp hin
      subst hpi
      intro u kvs hu hne hgp
      by_cases hup : u = p
      · subst hup
        rw [hg] at hgp
        cases hgp
      · have hupre : u <+: p := prefix_snoc_of_ne u p (PStep.idx i) hu hne
        exact hsp p (List.mem_cons_self _ _) u kvs hupre hup hgp
    · exact hsp p' (List.mem_cons_of_mem _ hin)
  · intro q kvs hq ht
    obtain ⟨p2, hp2, hpre⟩ := hcov q kvs hq ht
    cases List.mem_cons.mp hp2 with
    | inr hm => exact ⟨p2, List.mem_append.mpr (Or.inr hm), hpre⟩
    | inl he =>
      rw [he] at hpre
      obtain ⟨rest, hrest⟩ := hpre
      have hq2 : getPath (vseq xs []) rest = some (vmap kvs) := by
        have hqq := hq
        rw [← hrest, getPath_append, hg] at hqq
        exact hqq
      cases rest with
      | nil => cases hq2
      | cons st rest' =>
        rw [getPath] at hq2
        cases st with
        | key k =>
          have hck : childAt (PStep.key k) (vseq xs []) = none := rfl
          rw [hck] at hq2
          cases hq2
        | idx i =>
          cases hci : childAt (PStep.idx i) (vseq xs []) with
          | none => rw [hci] at hq2; cases hq2
          | some cc =>
            have hci2 : xs[i]? = some cc := by
              simpa [childAt, List.get?_eq_getElem?] using hci
            have hlen : i < xs.length := getElem_lt xs i cc hci2
            refine ⟨p ++ [PStep.idx i],
              List.mem_append.mpr (Or.inl
                (List.mem_map.mpr ⟨i, List.mem_range.mpr hlen, rfl⟩)), rest', ?_⟩
            rw [List.append_assoc]
            exact hrest

theorem map_enq_inv (root : Node) (p : TPath) (ps' : List TPath)
    (kvs0 : List (Str × Node))
    (hg : getPath root p = some (vmap kvs0))
    (h0 : alGet kvs0 "__type".data = none)
    (hsp : ∀ p' ∈ p :: ps', spineUntagged root p')
    (hcov : coveredBy root (p :: ps')) :
    (∀ p' ∈ kvs0.map (fun kv => p ++ [PStep.key kv.1]) ++ ps',
      spineUntagged root p') ∧
    coveredBy root (kvs0.map (fun kv => p ++ [PStep.key kv.1]) ++ ps') := by
  constructor
  · intro p' hp'
    rcases List.mem_append.mp hp' with hin | hin
    · obtain ⟨kv, hkv, hpi⟩ := List.mem_map.mp hin
      subst hpi
      intro u kvs hu hne hgp
      by_cases hup : u = p
      · subst hup
        rw [hg] at hgp
        injection hgp with hgp1
        injection hgp1 with hgp2
        subst hgp2
        exact h0
      · have hupre : u <+: p := prefix_snoc_of_ne u p (PStep.key kv.1) hu hne
        exact hsp p (List.mem_cons_self _ _) u kvs hupre hup hgp
    · exact hsp p' (List.mem_cons_of_mem _ hin)
  · intro q kvs hq ht
    obtain ⟨p2, hp2, hpre⟩ := hcov q kvs hq ht
    cases List.mem_cons.mp hp2 with
    | inr hm => exact ⟨p2, List.mem_append.mpr (Or.inr hm), hpre⟩
    | inl he =>
      rw [he] at hpre
      obtain ⟨rest, hrest⟩ := hpre
      have hq2 : getPath (vmap kvs0) rest = some (vmap kvs) := by
        have hqq := hq
        rw [← hrest, getPath_append, hg] at hqq
        exact hqq
      cases rest with
      | nil =>
        injection hq2 with hq3
        injection hq3 with hq4
        subst hq4
        rw [h0] at ht
        cases ht
      | cons st rest' =>
        rw [getPath] at hq2
        cases st with
        | idx i => simp [childAt] at hq2
        | key k =>
          cases hci : childAt (PStep.key k) (vmap kvs0) with
          | none => rw [hci] at hq2; cases hq2
          | some cc =>
            obtain ⟨kv, hkvm, hkv1⟩ := alGet_mem_key kvs0 k cc hci
            refine ⟨p ++ [PStep.key k],
              List.mem_append.mpr (Or.inl
                (List.mem_map.mpr ⟨kv, hkvm, by rw [hkv1]⟩)), rest', ?_⟩
            rw [List.append_assoc]
            exact hrest

theorem cov_drop_nonobj (root : Node) (p : TPath) (ps' : List TPath) (n : Node)
    (hg : getPath root p = some n) (hno : isObjLike n = false)
    (hcov : coveredBy root (p :: ps')) : coveredBy root ps' := by
  intro q kvs hq ht
  obtain ⟨p'', hp'', hpre⟩ := hcov q kvs hq ht
  cases List.mem_cons.mp hp'' with
  | inr hm => exact ⟨p'', hm, hpre⟩
  | inl he =>
    rw [he] at hpre
    obtain ⟨rest, hrest⟩ := hpre
    have hqq := hq
    rw [← hrest, getPath_append, hg] at hqq
    exact absurd hqq (fun hq' => getPath_nonobj n hno rest kvs hq')

theorem cov_drop_none (root : Node) (p : TPath) (ps' : List TPath)
    (hg : getPath root p = none)
    (hcov : coveredBy root (p :: ps')) : coveredBy root ps' := by
  intro q kvs hq ht
  obtain ⟨p'', hp'', hpre⟩ := hcov q kvs hq ht
  cases List.mem_cons.mp hp'' with
  | inr hm => exact ⟨p'', hm, hpre⟩
  | inl he =>
    rw [he] at hpre
    obtain ⟨rest, hrest⟩ := hpre
    have hqq := hq
    rw [← hrest, getPath_append, hg] at hqq
    cases hqq

theorem refWalk_clean :
    ∀ (f : Nat) (root : Node) (ps : List TPath) (r : Node),
    roPath root →
    pfPath root →
    (∀ p ∈ ps, spineUntagged root p) →
    coveredBy root ps →
    refWalk f root ps = .ok r →
    ntPath r := by
  intro f
  induction f with
  | zero => intro root ps r _ _ _ _ h; cases h
  | succ f ih =>
    intro root ps r hro hpf hsp hcov hw
    cases ps with
    | nil =>
      cases hw
      intro q kvs hq
      by_cases ht : (alGet kvs "__type".data).isSome = true
      · obtain ⟨p, hp, _⟩ := hcov q kvs hq ht
        cases hp
      · exact Option.not_isSome_iff_eq_none.mp ht
    | cons p ps' =>
      have hsp' : ∀ p' ∈ ps', spineUntagged root p' :=
        fun p' hp' => hsp p' (List.mem_cons_of_mem _ hp')
      cases hg : getPath root p with
      | none =>
        simp only [refWalk, hg] at hw
        exact ih root ps' r hro hpf hsp' (cov_drop_none root p ps' hg hcov) hw
      | some n =>
        cases n with
        | vseq xs props =>
          simp only [refWalk, hg] at hw
          obtain ⟨hsp2, hcov2⟩ := seq_enq_inv root p ps' xs props hg hpf hsp hcov
          exact ih root _ r hro hpf hsp2 hcov2 hw
        | vmap kvs0 =>
          cases hrp : refPathOf kvs0 with
          | none =>
            simp only [refWalk, hg, hrp] at hw
            have h0 : alGet kvs0 "__type".data = none := by
              by_cases ht : (alGet kvs0 "__type".data).isSome = true
              · obtain ⟨pp, _, hrp2⟩ := refPathOf_genuine kvs0 (hro p kvs0 hg ht)
                rw [hrp2] at hrp
                cases hrp
              · exact Option.not_isSome_iff_eq_none.mp ht
            obtain ⟨hsp2, hcov2⟩ := map_enq_inv root p ps' kvs0 hg h0 hsp hcov
            exact ih root _ r hro hpf hsp2 hcov2 hw
          | some pv =>
            cases pv with
            | vstr q0 =>
              cases hv : getVal root q0 with
              | none =>
                simp only [refWalk, hg, hrp, hv] at hw
                obtain ⟨hro2, hpf2, hsp2, hcov2⟩ :=
                  setStep_inv root (vmap kvs0) vundef p ps' hro hpf hsp hcov hg
                    (ntPath_nonobj vundef rfl) (pfPath_nonobj vundef rfl)
                exact ih _ ps' r hro2 hpf2 hsp2 hcov2 hw
              | some v =>
                simp only [refWalk, hg, hrp, hv] at hw
                cases hd : resolveDet f root (deepClone v) with
                | error e => rw [hd] at hw; cases hw
                | ok tval =>
                  rw [hd] at hw
                  have hdet := detNt root hro f (deepClone v) tval
                    (dc_roPath v (roPath_getVal root q0 v hro hv))
                    (propsFreeB_pfPath (deepClone v) (dc_propsFree.1 v)) hd
                  obtain ⟨hro2, hpf2, hsp2, hcov2⟩ :=
                    setStep_inv root (vmap kvs0) tval p ps' hro hpf hsp hcov hg
                      hdet.1 hdet.2
                  exact ih _ ps' r hro2 hpf2 hsp2 hcov2 hw
            | vnum m e => simp only [refWalk, hg, hrp] at hw; cases hw
            | vbool b => simp only [refWalk, hg, hrp] at hw; cases hw
            | vnull => simp only [refWalk, hg, hrp] at hw; cases hw
            | vundef => simp only [refWalk, hg, hrp] at hw; cases hw
            | vseq ys props => simp only [refWalk, hg, hrp] at hw; cases hw
            | vmap kvs1 => simp only [refWalk, hg, hrp] at hw; cases hw
        | vstr s =>
          simp only [refWalk, hg] at hw
          exact ih root ps' r hro hpf hsp' (cov_drop_nonobj root p ps' _ hg rfl hcov) hw
        | vnum m e =>
          simp only [refWalk, hg] at hw
          exact ih root ps' r hro hpf hsp' (cov_drop_nonobj root p ps' _ hg rfl hcov) hw
        | vbool b =>
          simp only [refWalk, hg] at hw
          exact ih root ps' r hro hpf hsp' (cov_drop_nonobj root p ps' _ hg rfl hcov) hw
        | vnull =>
          simp only [refWalk, hg] at hw
          exact ih root ps' r hro hpf hsp' (cov_drop_nonobj root p ps' _ hg rfl hcov) hw
        | vundef =>
          simp only [refWalk, hg] at hw
          exact ih root ps' r hro hpf hsp' (cov_drop_nonobj root p ps' _ hg rfl hcov) hw

theorem tagOf_spec (kvs : List (Str × Node)) (s : Str) (h : tagOf kvs = some s) :
    alGet kvs "__type".data = some (vstr s) := by
  rw [tagOf] at h
  cases ha : alGet kvs "__type".data with
  | none => rw [ha] at h; cases h
  | some v =>
    rw [ha] at h
    cases v with
    | vstr t => injection h with h'; subst h'; rfl
    | vnum m e => cases h
    | vbool b => cases h
    | vnull => cases h
    | vundef => cases h
    | vseq xs => cases h
    | vmap kvs' => cases h

theorem rfPairs_alGet : ∀ (kvs : List (Str × Node)) (k : Str),
    alGet (rfPairs kvs) k = (alGet kvs k).map rfN := by
  intro kvs
  induction kvs with
  | nil => intro k; rfl
  | cons kv rest ih =>
    intro k
    obtain ⟨k0, v0⟩ := kv
    rw [rfPairs, alGet, alGet]
    by_cases hk : k0 = k
    · rw [if_pos hk, if_pos hk]; rfl
    · rw [if_neg hk, if_neg hk]; exact ih k

theorem wellTagged_fb_spec (kvs : List (Str × Node))
    (hwt : wellTaggedB (vmap kvs) = true) (hFB : isFBKvs kvs = true) :
    ∃ m fb, kvs = [("__type".data, vstr "FALLBACK".data),
                   ("main".data, m), ("fallback".data, fb)] ∧
      wellTaggedB m = true ∧ wellTaggedB fb = true := by
  have hFB' : tagOf kvs = some "FALLBACK".data := by simpa [isFBKvs] using hFB
  have hsome := tagOf_spec kvs "FALLBACK".data hFB'
  have hnotgen : genuineRefKvs kvs = false := by
    cases hb : genuineRefKvs kvs
    · rfl
    · obtain ⟨p, _, hkvs⟩ := genuineRef_spec kvs hb
      subst hkvs
      simp only [alGet, if_pos rfl] at hsome
      injection hsome with h1
      injection h1 with h2
      exact absurd h2 (by decide)
  rcases kvs with _ | ⟨⟨k1, t⟩, _ | ⟨⟨k2, m⟩, _ | ⟨⟨k3, fb⟩, _ | ⟨e4, tl⟩⟩⟩⟩
  · cases hsome
  · simp [wellTaggedB, hsome, hnotgen] at hwt
  · simp [wellTaggedB, hsome, hnotgen] at hwt
  · simp only [wellTaggedB, hsome, hnotgen, Option.isSome_some, if_true,
      Bool.false_eq_true, if_false, Bool.and_eq_true, decide_eq_true_eq] at hwt
    obtain ⟨⟨⟨⟨⟨hk1, hts⟩, hk2⟩, hk3⟩, hm⟩, hfb⟩ := hwt
    have ht' := isStrEq_spec t "FALLBACK".data hts
    subst hk1
    subst hk2
    subst hk3
    subst ht'
    exact ⟨m, fb, rfl, hm, hfb⟩
  · simp [wellTaggedB, hsome, hnotgen] at hwt

theorem wellTagged_tagged_spec (kvs : List (Str × Node))
    (hwt : wellTaggedB (vmap kvs) = true)
    (ht : (alGet kvs "__type".data).isSome = true) :
    genuineRefKvs kvs = true ∨ isFBKvs kvs = true := by
  by_cases hgen : genuineRefKvs kvs = true
  · exact Or.inl hgen
  · right
    have hgenF : genuineRefKvs kvs = false := by
      cases hb : genuineRefKvs kvs
      · rfl
      · exact absurd hb hgen
    rcases kvs with _ | ⟨⟨k1, t⟩, _ | ⟨⟨k2, m⟩, _ | ⟨⟨k3, fb⟩, _ | ⟨e4, tl⟩⟩⟩⟩
    · cases ht
    · simp [wellTaggedB, ht, hgenF] at hwt
    · simp [wellTaggedB, ht, hgenF] at hwt
    · simp only [wellTaggedB, ht, hgenF, if_true, Bool.false_eq_true, if_false,
        Bool.and_eq_true, decide_eq_true_eq] at hwt
      obtain ⟨⟨⟨⟨⟨hk1, hts⟩, hk2⟩, hk3⟩, hm⟩, hfb⟩ := hwt
      have ht' := isStrEq_spec t "FALLBACK".data hts
      subst hk1
      subst ht'
      rfl
    · simp [wellTaggedB, ht, hgenF] at hwt

theorem wellTagged_untagged_spec (kvs : List (Str × Node))
    (hwt : wellTaggedB (vmap kvs) = true)
    (ht : alGet kvs "__type".data = none) : wtPairs kvs = true := by
  rcases kvs with _ | ⟨⟨k1, t⟩, _ | ⟨⟨k2, m⟩, _ | ⟨⟨k3, fb⟩, _ | ⟨e4, tl⟩⟩⟩⟩ <;>
    simp only [wellTaggedB, ht, Option.isSome_none, Bool.false_eq_true,
      if_false] at hwt <;>
    exact hwt

theorem wt_refOnly :
    (∀ n, wellTaggedB n = true → refOnlyB (rfN n) = true) ∧
    (∀ kvs, wtPairs kvs = true → roPairs (rfPairs kvs) = true) ∧
    (∀ xs, wtList xs = true → roList (rfList xs) = true) := by
  refine rfN.mutual_induct
    (fun n => wellTaggedB n = true → refOnlyB (rfN n) = true)
    (fun kvs => wtPairs kvs = true → roPairs (rfPairs kvs) = true)
    (fun xs => wtList xs = true → roList (rfList xs) = true)
    ?_ ?_ ?_ ?_ ?_ ?_ ?_ ?_ ?_
  · intro xs props ih hwt
    have hwt' : wtList xs = true := hwt
    show roList (rfList xs) = true
    exact ih hwt'
  · intro kvs hFB resolved mainVal hUN ihp hwt
    obtain ⟨m, fb, hkvs, hm, hfb⟩ := wellTagged_fb_spec kvs hwt hFB
    have hwtp : wtPairs kvs = true := by
      subst hkvs
      have h1 : wellTaggedB (vstr "FALLBACK".data) = true := rfl
      simp [wtPairs, h1, hm, hfb]
    have hUN' : undefOrNull ((alGet (rfPairs kvs) "main".data).getD vundef) = true := hUN
    simp only [rfN]
    rw [if_pos hFB, if_pos hUN']
    cases hfbv : alGet (rfPairs kvs) "fallback".data with
    | none => rfl
    | some w =>
      rw [Option.getD_some]
      exact roPairs_alGet (rfPairs kvs) "fallback".data w (ihp hwtp) hfbv
  · intro kvs hFB resolved mainVal hUN ihp hwt
    obtain ⟨m, fb, hkvs, hm, hfb⟩ := wellTagged_fb_spec kvs hwt hFB
    have hwtp : wtPairs kvs = true := by
      subst hkvs
      have h1 : wellTaggedB (vstr "FALLBACK".data) = true := rfl
      simp [wtPairs, h1, hm, hfb]
    have hUN' : ¬ undefOrNull ((alGet (rfPairs kvs) "main".data).getD vundef) = true := hUN
    simp only [rfN]
    rw [if_pos hFB, if_neg hUN']
    cases hmv : alGet (rfPairs kvs) "main".data with
    | none => rfl
    | some w =>
      rw [Option.getD_some]
      exact roPairs_alGet (rfPairs kvs) "main".data w (ihp hwtp) hmv
  · intro kvs hnFB ihp hwt
    simp only [rfN]
    rw [if_neg hnFB]
    by_cases ht : (alGet kvs "__type".data).isSome = true
    · rcases wellTagged_tagged_spec kvs hwt ht with hgen | hFB2
      · obtain ⟨p, hpne, hkvs⟩ := genuineRef_spec kvs hgen
        subst hkvs
        have hpe : p.isEmpty = false := by
          cases p with
          | nil => exact absurd rfl hpne
          | cons a as => rfl
        show (!p.isEmpty) = true
        rw [hpe]
        rfl
      · exact absurd hFB2 hnFB
    · have ht' : alGet kvs "__type".data = none := Option.not_isSome_iff_eq_none.mp ht
      have hwtp : wtPairs kvs = true := wellTagged_untagged_spec kvs hwt ht'
      rw [refOnlyB, rfPairs_alGet, ht']
      simp only [Option.map_none', Option.isSome_none, Bool.false_eq_true, if_false]
      exact ihp hwtp
  · intro t h1 h2 hwt
    cases t with
    | vseq xs props => exact (h1 xs props rfl).elim
    | vmap kvs => exact (h2 kvs rfl).elim
    | vstr s => rfl
    | vnum m e => rfl
    | vbool b => rfl
    | vnull => rfl
    | vundef => rfl
  · intro _
    rfl
  · intro x xs ih1 ih2 hwt
    simp only [wtList, Bool.and_eq_true] at hwt
    show (refOnlyB (rfN x) && roList (rfList xs)) = true
    rw [ih1 hwt.1, ih2 hwt.2]
    rfl
  · intro _
    rfl
  · intro k v rest ih1 ih2 hwt
    simp only [wtPairs, Bool.and_eq_true] at hwt
    show (refOnlyB (rfN v) && roPairs (rfPairs rest)) = true
    rw [ih1 hwt.1, ih2 hwt.2]
    rfl

theorem pf_rfN :
    (∀ n, propsFreeB n = true → propsFreeB (rfN n) = true) ∧
    (∀ kvs, pfPairs kvs = true → pfPairs (rfPairs kvs) = true) ∧
    (∀ xs, pfList xs = true → pfList (rfList xs) = true) := by
  refine rfN.mutual_induct
    (fun n => propsFreeB n = true → propsFreeB (rfN n) = true)
    (fun kvs => pfPairs kvs = true → pfPairs (rfPairs kvs) = true)
    (fun xs => pfList xs = true → pfList (rfList xs) = true)
    ?_ ?_ ?_ ?_ ?_ ?_ ?_ ?_ ?_
  · intro xs props ih hp
    rw [propsFreeB, Bool.and_eq_true] at hp
    show (props.isEmpty && pfList (rfList xs)) = true
    rw [hp.1, ih hp.2]
    rfl
  · intro kvs hFB resolved mainVal hUN ihp hp
    have hp' : pfPairs kvs = true := hp
    have hUN' : undefOrNull ((alGet (rfPairs kvs) "main".data).getD vundef) = true := hUN
    simp only [rfN]
    rw [if_pos hFB, if_pos hUN']
    cases hfbv : alGet (rfPairs kvs) "fallback".data with
    | none => rfl
    | some w =>
      rw [Option.getD_some]
      exact pfPairs_alGet (rfPairs kvs) "fallback".data w (ihp hp') hfbv
  · intro kvs hFB resolved mainVal hUN ihp hp
    have hp' : pfPairs kvs = true := hp
    have hUN' : ¬ undefOrNull ((alGet (rfPairs kvs) "main".data).getD vundef) = true := hUN
    simp only [rfN]
    rw [if_pos hFB, if_neg hUN']
    cases hmv : alGet (rfPairs kvs) "main".data with
    | none => rfl
    | some w =>
      rw [Option.getD_some]
      exact pfPairs_alGet (rfPairs kvs) "main".data w (ihp hp') hmv
  · intro kvs hnFB ihp hp
    simp only [rfN]
    rw [if_neg hnFB]
    exact ihp hp
  · intro t h1 h2 hp
    cases t with
    | vseq xs props => exact (h1 xs props rfl).elim
    | vmap kvs => exact (h2 kvs rfl).elim
    | vstr s => exact hp
    | vnum m e => exact hp
    | vbool b => exact hp
    | vnull => exact hp
    | vundef => exact hp
  · intro hp
    exact hp
  · intro x xs ih1 ih2 hp
    rw [pfList, Bool.and_eq_true] at hp
    show (propsFreeB (rfN x) && pfList (rfList xs)) = true
    rw [ih1 hp.1, ih2 hp.2]
    rfl
  · intro hp
    exact hp
  · intro k v rest ih1 ih2 hp
    rw [pfPairs, Bool.and_eq_true] at hp
    show (propsFreeB (rfN v) && pfPairs (rfPairs rest)) = true
    rw [ih1 hp.1, ih2 hp.2]
    rfl

theorem rfTop_not_fb (X : Node) (h : isFBNodeB X = false) : rfTop X = rfN X := by
  cases X with
  | vmap kvs =>
    have h' : isFBKvs kvs = false := h
    rw [rfTop, if_neg (fun hc => Bool.false_ne_true (h'.symm.trans hc))]
  | vseq xs => rfl
  | vstr s => rfl
  | vnum m e => rfl
  | vbool b => rfl
  | vnull => rfl
  | vundef => rfl

theorem ntPath_noDeferred (r : Node) (h : ntPath r) : noDeferredAt r := by
  intro q kvs hq
  have h0 := h q kvs hq
  rw [tagOf, h0]
  refine ⟨?_, ?_⟩ <;> (intro hc; cases hc)

theorem spineUntagged_nil (root : Node) : spineUntagged root [] := by
  intro u kvs hu hne
  rw [List.prefix_nil] at hu
  exact absurd hu hne

theorem coveredBy_root (root : Node) : coveredBy root [[]] := by
  intro q kvs _ _
  exact ⟨[], by simp, List.nil_prefix⟩

/-- C1 (amended): for every document, override list, environment and file
system, if the intermediate tree built by the parsing front end is
well-tagged (every __type-carrying object is a genuine reference or
fallback object, which holds whenever the document does not assign the
reserved key __type itself), carries no stored own properties on its
arrays (nothing was assigned under a non-index key of an array, whose
stored value the index-only resolver passes would never visit), and
the root is not itself a deferred node, then a successful parseString
run returns a tree with no REF- or FALLBACK-tagged object anywhere. -/
theorem c1_amended (f : Nat) (fsys : Fsys) (env : Env) (ov : Ov)
    (content baseDir : Str) (X r : Node)
    (hX : parseCore (parseStringF fsys env f) env fsys f ov content baseDir = .ok X)
    (hwt : wellTaggedB X = true)
    (hpfX : propsFreeB X = true)
    (hnR : isRefNodeB X = false)
    (hnF : isFBNodeB X = false)
    (hr : parseStringF fsys env (f + 1) ov content baseDir = .ok r) :
    noDeferredAt r := by
  simp only [parseStringF, hX] at hr
  have hr' : refPassTop f (rfTop X) = .ok r := hr
  rw [rfTop_not_fb X hnF] at hr'
  have hro : refOnlyB (rfN X) = true := wt_refOnly.1 X hwt
  have hwalk : refWalk f (rfN X) [[]] = .ok r := by
    cases X with
    | vmap kvs =>
      by_cases ht : (alGet kvs "__type".data).isSome = true
      · exfalso
        rcases wellTagged_tagged_spec kvs hwt ht with hgen | hFB2
        · obtain ⟨p, hp, hrp⟩ := refPathOf_genuine kvs hgen
          have hR : isRefNodeB (vmap kvs) = true := by
            show (refPathOf kvs).isSome = true
            rw [hrp]
            rfl
          rw [hR] at hnR
          cases hnR
        · have h' : isFBKvs kvs = false := hnF
          rw [hFB2] at h'
          cases h'
      · have ht' : alGet kvs "__type".data = none := Option.not_isSome_iff_eq_none.mp ht
        have hFBf : isFBKvs kvs = false := by
          simp [isFBKvs, tagOf, ht']
        have hrfn : rfN (vmap kvs) = vmap (rfPairs kvs) := by
          simp only [rfN]
          rw [if_neg (fun hc => Bool.false_ne_true (hFBf.symm.trans hc))]
        rw [hrfn] at hr' ⊢
        have hrp0 : refPathOf (rfPairs kvs) = none := by
          rw [refPathOf]
          rw [if_neg ?_]
          intro hcon
          rw [tagOf, rfPairs_alGet, ht'] at hcon
          cases hcon
        simp only [refPassTop, hrp0] at hr'
        exact hr'
    | vseq xs props => exact hr'
    | vstr s => exact hr'
    | vnum m e => exact hr'
    | vbool b => exact hr'
    | vnull => exact hr'
    | vundef => exact hr'
  have hpfr : propsFreeB (rfN X) = true := pf_rfN.1 X hpfX
  exact ntPath_noDeferred r
    (refWalk_clean f (rfN X) [[]] r (refOnlyB_roPath (rfN X) hro hpfr)
      (propsFreeB_pfPath (rfN X) hpfr)
      (fun p hp => by
        rw [List.mem_singleton] at hp
        subst hp
        exact spineUntagged_nil _)
      (coveredBy_root _) hwalk)

/-- A deferred marker stored as a non-index own property of an array
survives both resolver passes: a = [1], a.foo = a reference, b = 2
parses successfully with no cycle and no literal __type assignment,
yet the returned tree still contains a REF-tagged object, because
setVal stores the reference as an own property of the array and the
passes visit arrays through their indices only.  This is why
c1_amended additionally assumes the intermediate tree free of stored
array properties. -/
theorem arrayProp_ref_survives :
    parseStringF fsEmpty envEmpty 12 []
      "a = [1]\na.foo = $\x7bb\x7d\nb = 2".data [] =
      .ok (vmap [("a".data, vseq [vnum 1 0]
                    [("foo".data, vmap [("__type".data, vstr "REF".data),
                                        ("path".data, vstr "b".data)])]),
                 ("b".data, vnum 2 0)]) ∧
    containsDeferredB
      (vmap [("a".data, vseq [vnum 1 0]
                [("foo".data, vmap [("__type".data, vstr "REF".data),
                                    ("path".data, vstr "b".data)])]),
             ("b".data, vnum 2 0)]) = true ∧
    propsFreeB
      (vmap [("a".data, vseq [vnum 1 0]
                [("foo".data, vmap [("__type".data, vstr "REF".data),
                                    ("path".data, vstr "b".data)])]),
             ("b".data, vnum 2 0)]) = false :=
  ⟨rfl, rfl, rfl⟩

/-- Stored array properties are read back by getVal: a = [1],
a.foo = 5, b = a reference to a.foo binds b to the stored 5. -/
theorem arrayProp_read :
    parseStringF fsEmpty envEmpty 12 []
      "a = [1]\na.foo = 5\nb = $\x7ba.foo\x7d".data [] =
      .ok (vmap [("a".data, vseq [vnum 1 0] [("foo".data, vnum 5 0)]),
                 ("b".data, vnum 5 0)]) := rfl

/-- C1 (counterexample): the document `a.__type = "REF"` has no
structural cycle, parses successfully, and its output contains an
object whose __type tag is REF — the dotted assignment forges a
deferred marker that both resolver passes leave in place, so the
claimed universal absence of deferred node kinds fails. -/
theorem c1_counterexample :
    parseStringF fsEmpty envEmpty 12 [] "a.__type = \"REF\"".data [] =
      .ok (vmap [("a".data, vmap [("__type".data, vstr "REF".data)])]) ∧
    containsDeferredB
      (vmap [("a".data, vmap [("__type".data, vstr "REF".data)])]) = true :=
  ⟨rfl, rfl⟩

theorem c1_amended_witness :
    noDeferredAt (vmap [("b".data, vnum 1 0), ("a".data, vnum 1 0)]) :=
  c1_amended 7 fsEmpty envEmpty [] "b = 1\na = $\x7bb\x7d".data []
    (vmap [("b".data, vnum 1 0),
           ("a".data, vmap [("__type".data, vstr "REF".data),
                            ("path".data, vstr "b".data)])])
    (vmap [("b".data, vnum 1 0), ("a".data, vnum 1 0)])
    rfl rfl rfl rfl rfl rfl
